import Mathlib

/-!
# zz_audio: a shallow embedding of `audio.c`

The three fill callbacks of `audio.c` (`zz_audio_Device_cb`, `zz_audio_Mixer_cb`,
`zz_audio_SamplePlayer_cb`) are translated into pure functions with explicit state passing.

Conventions of the embedding:

* a `float *` is a pair of a memory region (`Buf α`, a total map from element offsets to sample
  values) and, where the code moves the pointer, an `Int` offset into it;
* the sample type `α` stands for `float`; the code only copies samples, stores all-zero bytes
  and adds samples, so `α` is kept abstract with `0`, `+` and `ZeroFill.zeroBytes`; `CFloat` is a
  partial model of binary32 addition, used where rounding decides the result;
* C `int` values are mathematical integers; the conversions to and from `size_t` that the code
  performs (`len / sizeof(float)`, the byte counts of `memset`/`memcpy`) are written out with
  explicit `% 2^64` and a wrap into the `int` range, with `sizeof(float) = 4`; the `int` product
  `pos * channels` is `intMul`, which wraps into the `int` range;
* `exit(1)` is the `Outcome.exit` result, a normal `return v` is `Outcome.ret v`.
-/

namespace ZzAudio

/-! ## Machine arithmetic -/

/-- `sizeof(float)`. -/
def sizeofFloat : Int := 4

/-- Conversion of an integer value to `size_t` (64 bit, unsigned). -/
def toSizeT (x : Int) : Int := x % 2 ^ 64

/-- Conversion of an integer value to `int` (32 bit, two's complement). -/
def toInt (x : Int) : Int := (x + 2 ^ 31) % 2 ^ 32 - 2 ^ 31

/-- The definition `MIN(x,y) (((x) < (y)) ? (x) : (y))`. -/
def MIN (x y : Int) : Int := if x < y then x else y

/-- The product `a * b` of two `int` values as the compiled code computes it: the low 32 bits of
the exact product read as a two's-complement `int` (an overflowing `int` product is undefined in
C; this is what the multiply instruction leaves). Arguments outside the `int` range are not
values of a C `int`, and the exact product is kept for them. -/
def intMul (a b : Int) : Int :=
  if -2 ^ 31 ≤ a ∧ a < 2 ^ 31 ∧ -2 ^ 31 ≤ b ∧ b < 2 ^ 31 then toInt (a * b) else a * b

/-! ## Memory -/

/-- A region of `float` objects addressed by element offset. -/
abbrev Buf (α : Type) := Int → α

/-- What a partial overwrite does to one `float` object: `zeroBytes k x` is the value of the object
that held `x` once its first `k` bytes (`0 < k < sizeof(float)`) have been set to zero. -/
class ZeroFill (α : Type) where
  zeroBytes : Nat → α → α

/-- The store `p[i] = v`. -/
def Buf.write {α : Type} (b : Buf α) (i : Int) (v : α) : Buf α :=
  fun j => if j = i then v else b j

/-- The call `memset(p + off, 0, n)`, `n` a `size_t` byte count: the `n / sizeof(float)` whole
objects from `off` on become zero, and when `n` is not a multiple of `sizeof(float)` the first
`n % sizeof(float)` bytes of the next object are zeroed. -/
def memset {α : Type} [Zero α] [ZeroFill α] (p : Buf α) (off : Int) (n : Int) : Buf α :=
  fun j =>
    if off ≤ j ∧ j < off + n / sizeofFloat then 0
    else if j = off + n / sizeofFloat ∧ n % sizeofFloat ≠ 0 then
      ZeroFill.zeroBytes (n % sizeofFloat).toNat (p j)
    else p j

/-- The call `memcpy(dst + d, src + s, n)` for a `size_t` byte count `n` that is a whole number of
`float` objects (the only call in `audio.c` passes `2 * frame_count * sizeof(float)`): the
`n / sizeof(float)` objects from `src + s` are copied to `dst + d`. -/
def memcpy {α : Type} (dst : Buf α) (d : Int) (src : Buf α) (s : Int) (n : Int) : Buf α :=
  fun j => if d ≤ j ∧ j < d + n / sizeofFloat then src (s + (j - d)) else dst j

/-! ## Results of a call -/

/-- How a piece of code ends: `ret v st` is a normal return of the value `v` in state `st` (`ρ` is
`Int` for the `int` functions and `Unit` for `void` functions and loops); `exit c msg st` is
`exit(c)` after `msg` was printed on `stderr`, in state `st`. -/
inductive Outcome (ρ σ : Type) where
  | ret (value : ρ) (state : σ)
  | exit (status : Int) (stderr : String) (state : σ)

/-- Modelled from the spec: `audio.h` is not part of the sources. `zz_audio_cb` is the type of the
fill callbacks, `int (*)(void *userdata, float *stream, int len)`: a callback gets its `userdata`,
the state `W` that `userdata` gives it access to, the buffer to fill and the length in bytes; it
returns the `filled` flag, the new state and the buffer as it left it, or ends in `exit`. -/
abbrev zz_audio_cb (U W α : Type) := U → W → Buf α → Int → Outcome Int (W × Buf α)

/-! ## SamplePlayer -/

/-- Modelled from the spec: `trigger.h` is not part of the sources; the end-of-playback signal is
an opaque "fire" operation, so a trigger is represented by the number of times it was fired. -/
structure zz_trigger where
  fired : Nat

/-- Modelled from the spec: `zz_trigger_fire` fires the signal once. -/
def zz_trigger_fire (t : zz_trigger) : zz_trigger := { fired := t.fired + 1 }

/-- The record `struct zz_audio_SamplePlayer`. -/
structure zz_audio_SamplePlayer (α : Type) where
  buf : Buf α
  frames : Int
  channels : Int
  pos : Int
  playing : Int
  end_signal : zz_trigger

/-- The mono branch of the `switch`: `for (i = 0; i < frame_count; i++) { sample = *(src++);
*(dst++) = sample; *(dst++) = sample; }`, run for `n` iterations from the pointers `(s, d)`. -/
def upmixLoop {α : Type} (buf : Buf α) : Nat → Int × Int × Buf α → Int × Int × Buf α
  | 0, st => st
  | n + 1, (s, d, stream) =>
    let sample := buf s
    upmixLoop buf n (s + 1, d + 2, (stream.write d sample).write (d + 1) sample)

/-- The body of `switch (player->channels)`: the advanced `src`, `dst` and the stream after the
copy, or `none` in the `default` case. -/
def copyFrames {α : Type} (player : zz_audio_SamplePlayer α) (stream : Buf α) (frame_count : Int)
    (src dst : Int) : Option (Int × Int × Buf α) :=
  if player.channels = 2 then
    some (src + 2 * frame_count, dst + 2 * frame_count,
      memcpy stream dst player.buf src (toSizeT (toSizeT (2 * frame_count) * sizeofFloat)))
  else if player.channels = 1 then
    some (upmixLoop player.buf frame_count.toNat (src, dst, stream))
  else none

/-- Lines 76-77 of `zz_audio_SamplePlayer_cb`: `if (player->pos < 0) player->pos = 0;` then
`if (player->pos > player->frames) player->pos = player->frames;`. -/
def clampPos {α : Type} (player : zz_audio_SamplePlayer α) : zz_audio_SamplePlayer α :=
  let player := if player.pos < 0 then { player with pos := 0 } else player
  if player.pos > player.frames then { player with pos := player.frames } else player

/-- Lines 78-80 of `zz_audio_SamplePlayer_cb`:
`if (player->playing != 0 && player->pos == player->frames) player->playing = 0;`. -/
def autoPause {α : Type} (player : zz_audio_SamplePlayer α) : zz_audio_SamplePlayer α :=
  if player.playing ≠ 0 ∧ player.pos = player.frames then { player with playing := 0 } else player

/-- Lines 84-114 of `zz_audio_SamplePlayer_cb`, the part after the `playing == 0` test: copy
`frame_count` frames, zero `zero_count` frames, advance the cursor and fire the end signal;
`frames` is the local variable of that name (the number of stereo frames requested). -/
def playBlock {α : Type} [Zero α] [ZeroFill α]
    (player : zz_audio_SamplePlayer α) (stream : Buf α) (frames : Int) :
    Outcome Int (zz_audio_SamplePlayer α × Buf α) :=
  let frame_count := MIN (player.frames - player.pos) frames
  let zero_count := frames - frame_count
  let src := intMul player.pos player.channels
  let dst := 0
  match copyFrames player stream frame_count src dst with
  | none =>
    .exit 1 ("unsupported number of sample channels: " ++ toString player.channels ++ "\n")
      (player, stream)
  | some (_, dst, stream) =>
    let stream :=
      if zero_count > 0 then
        memset stream dst (toSizeT (toSizeT (2 * zero_count) * sizeofFloat))
      else stream
    let player := { player with pos := player.pos + frame_count }
    let player :=
      if player.pos ≥ player.frames then
        { player with end_signal := zz_trigger_fire player.end_signal }
      else player
    .ret 1 (player, stream)

/-- The function `zz_audio_SamplePlayer_cb`; the state is the player record and the stream. -/
def zz_audio_SamplePlayer_cb {α : Type} [Zero α] [ZeroFill α]
    (player : zz_audio_SamplePlayer α) (stream : Buf α) (len : Int) :
    Outcome Int (zz_audio_SamplePlayer α × Buf α) :=
  let frames := toInt (toSizeT len / (2 * sizeofFloat))
  let player := autoPause (clampPos player)
  if player.playing = 0 then .ret 0 (player, stream)
  else playBlock player stream frames

/-- A run of successive `zz_audio_SamplePlayer_cb` calls on one player with no control operation
in between; each call has its own stream content and `len`. The result lists, per call, the return
value, the player after the call and the stream after the call; `none` when a call ends in
`exit`. -/
def runCalls {α : Type} [Zero α] [ZeroFill α] (player : zz_audio_SamplePlayer α) :
    List (Buf α × Int) → Option (List (Int × zz_audio_SamplePlayer α × Buf α))
  | [] => some []
  | (stream, len) :: rest =>
    match zz_audio_SamplePlayer_cb player stream len with
    | .exit _ _ _ => none
    | .ret v (player, out) => (runCalls player rest).map (fun tr => (v, player, out) :: tr)

/-! ## Device -/

/-- The record `struct zz_audio_Device`. -/
structure zz_audio_Device (U W α : Type) where
  callback : zz_audio_cb U W α
  userdata : U

/-- The function `zz_audio_Device_cb`. -/
def zz_audio_Device_cb {U W α : Type} [Zero α] [ZeroFill α] (dev : zz_audio_Device U W α)
    (w : W) (stream : Buf α) (len : Int) : Outcome Unit (W × Buf α) :=
  match dev.callback dev.userdata w stream len with
  | .exit status msg st => .exit status msg st
  | .ret filled (w, stream) =>
    if filled = 0 then .ret () (w, memset stream 0 (toSizeT len))
    else .ret () (w, stream)

/-! ## Mixer -/

/-- The record `struct zz_audio_MixerChannel`; the `next` pointer is the tail of the list the
channel is stored in. -/
structure zz_audio_MixerChannel (U W α : Type) where
  callback : zz_audio_cb U W α
  userdata : U

/-- Modelled from the spec: SDL is not part of the sources. A mutex is represented by the status
codes that `SDL_LockMutex` and `SDL_UnlockMutex` return on it (`0` is success). -/
structure SDL_mutex where
  lockStatus : Int
  unlockStatus : Int

/-- The observable steps of a `zz_audio_Mixer_cb` call: the call of `SDL_LockMutex`, the call of
`SDL_UnlockMutex`, and the call `ch->callback(ch->userdata, mixer->buf, len)` of a channel. -/
inductive Event (U W α : Type) where
  | lock
  | unlock
  | call (ch : zz_audio_MixerChannel U W α) (len : Int)

/-- The record `struct zz_audio_Mixer`; the linked list of channels is a `List`, `NULL` is `[]`. -/
structure zz_audio_Mixer (U W α : Type) where
  mutex : SDL_mutex
  buf : Buf α
  channels : List (zz_audio_MixerChannel U W α)

/-- Everything a `zz_audio_Mixer_cb` call reads and writes: the mixer record (with the scratch
buffer `mixer->buf`), the state `world` of the channel callbacks, the output `stream`, and the
`trace` of the steps taken so far. -/
structure MixerState (U W α : Type) where
  mixer : zz_audio_Mixer U W α
  world : W
  stream : Buf α
  trace : List (Event U W α)

/-- The inner loop `for (int i=0; i<n; i++) stream[i] += mixer->buf[i];`: `k` more iterations
starting at index `i`. -/
def addLoop {α : Type} [Add α] (buf : Buf α) : Nat → Int → Buf α → Buf α
  | 0, _, stream => stream
  | k + 1, i, stream => addLoop buf k (i + 1) (stream.write i (stream i + buf i))

/-- The loop `while (ch != NULL) { ... ch = ch->next; }` of `zz_audio_Mixer_cb`, started at the
channel list `ch`. -/
def mixLoop {U W α : Type} [Add α] (len : Int) :
    List (zz_audio_MixerChannel U W α) → MixerState U W α → Outcome Unit (MixerState U W α)
  | [], st => .ret () st
  | ch :: next, st =>
    let st := { st with trace := st.trace ++ [Event.call ch len] }
    match ch.callback ch.userdata st.world st.mixer.buf len with
    | .exit status msg (w, b) =>
      .exit status msg { st with world := w, mixer := { st.mixer with buf := b } }
    | .ret filled (w, b) =>
      let st := { st with world := w, mixer := { st.mixer with buf := b } }
      let st :=
        if filled ≠ 0 then
          let n := toInt (toSizeT len / sizeofFloat)
          { st with stream := addLoop st.mixer.buf n.toNat 0 st.stream }
        else st
      mixLoop len next st

/-- The function `zz_audio_Mixer_cb`. -/
def zz_audio_Mixer_cb {U W α : Type} [Zero α] [Add α] [ZeroFill α]
    (st : MixerState U W α) (len : Int) : Outcome Int (MixerState U W α) :=
  if st.mixer.channels.isEmpty then .ret 0 st
  else
    let st := { st with stream := memset st.stream 0 (toSizeT len) }
    let st := { st with trace := st.trace ++ [Event.lock] }
    if st.mixer.mutex.lockStatus ≠ 0 then
      .exit 1 "zz_audio_Mixer_cb: SDL_LockMutex() failed\n" st
    else
      match mixLoop len st.mixer.channels st with
      | .exit status msg st => .exit status msg st
      | .ret _ st =>
        let st := { st with trace := st.trace ++ [Event.unlock] }
        if st.mixer.mutex.unlockStatus ≠ 0 then
          .exit 1 "zz_audio_Mixer_cb: SDL_UnlockMutex() failed\n" st
        else .ret 1 st

/-- What the channels produce during one mix, in list order: for each channel the `filled` value
its callback returned and the scratch buffer as the callback left it. The callbacks run one after
the other on the shared state and the shared scratch buffer; `none` when one of them ends in
`exit`. -/
def channelOutputs {U W α : Type} (len : Int) :
    List (zz_audio_MixerChannel U W α) → W → Buf α → Option (List (Int × Buf α))
  | [], _, _ => some []
  | ch :: next, w, b =>
    match ch.callback ch.userdata w b len with
    | .exit _ _ _ => none
    | .ret filled (w, b) => (channelOutputs len next w b).map (fun outs => (filled, b) :: outs)

/-- The mix as the specification words it: sample `i` of the result is the sum, over the channels
that reported filled, of sample `i` of their scratch output, added in list order onto `base`. -/
def mixedSample {α : Type} [Add α] (base : α) (outs : List (Int × Buf α)) (i : Int) : α :=
  ((outs.filter (fun o => o.1 ≠ 0)).map (fun o => o.2 i)).foldl (fun acc x => acc + x) base

/-! ## Concrete inputs -/

/-- Integer samples held as little-endian words: zeroing the first `k` bytes of the object clears
its low `8 * k` bits. -/
instance : ZeroFill Int := ⟨fun k x => x - x % 256 ^ k⟩

/-- A playing stereo player over the 10 frames `100, 101, ..., 119`, with the cursor at `pos`. -/
def stereoTen (pos : Int) : zz_audio_SamplePlayer Int :=
  { buf := fun i => 100 + i, frames := 10, channels := 2, pos := pos, playing := 1,
    end_signal := { fired := 0 } }

/-- A playing stereo player over `2 ^ 30 + 1` frames whose sample at offset `i` is `i`, with
the cursor on the last frame. -/
def largeStereo : zz_audio_SamplePlayer Int :=
  { buf := fun i => i, frames := 2 ^ 30 + 1, channels := 2, pos := 2 ^ 30, playing := 1,
    end_signal := { fired := 0 } }

/-- The player `largeStereo` over a source buffer that holds the same samples at every offset
from 0 on, and zero below offset 0. -/
def largeStereoPadded : zz_audio_SamplePlayer Int :=
  { buf := fun i => if i < 0 then 0 else i, frames := 2 ^ 30 + 1, channels := 2, pos := 2 ^ 30,
    playing := 1, end_signal := { fired := 0 } }

/-- A playing mono player over the two samples `a, b`, cursor at the start. -/
def monoTwo {α : Type} (a b : α) : zz_audio_SamplePlayer α :=
  { buf := fun i => if i = 0 then a else b, frames := 2, channels := 1, pos := 0, playing := 1,
    end_signal := { fired := 0 } }

/-- A stream whose every sample is `7` (stale content of the caller). -/
def staleStream : Buf Int := fun _ => 7

/-- A mixer channel whose callback fills its `len / 4` samples with the constant `a` and reports
filled. -/
def constChannel (a : Int) : zz_audio_MixerChannel Unit Unit Int :=
  { callback := fun _ w b len => .ret 1 (w, fun i => if 0 ≤ i ∧ i < len / 4 then a else b i),
    userdata := () }

/-- A mixer channel whose callback writes nothing and reports not filled. -/
def silentChannel : zz_audio_MixerChannel Unit Unit Int :=
  { callback := fun _ w b _ => .ret 0 (w, b), userdata := () }

/-- A mixer state over the given channels, with working mutex, a stale output stream and an empty
trace. -/
def mixerOf (chs : List (zz_audio_MixerChannel Unit Unit Int)) : MixerState Unit Unit Int :=
  { mixer := { mutex := { lockStatus := 0, unlockStatus := 0 }, buf := fun _ => 9, channels := chs },
    world := (), stream := staleStream, trace := [] }

/-! ## Observation of calls -/

/-- The state in which a piece of code ended, whether by `return` or by `exit`. -/
def Outcome.finalState {ρ σ : Type} : Outcome ρ σ → σ
  | .ret _ st => st
  | .exit _ _ st => st

/-- A callback that keeps a record of its calls: the state is extended by the list of the
arguments `(userdata, stream, len)` of every call made so far, `stream` being the buffer as the
callback received it; apart from the record it behaves as `cb`. -/
def recorded {U W α : Type} (cb : zz_audio_cb U W α) :
    zz_audio_cb U (W × List (U × Buf α × Int)) α :=
  fun u st b len =>
    match cb u st.1 b len with
    | .ret v (w, b') => .ret v ((w, st.2 ++ [(u, b, len)]), b')
    | .exit c m (w, b') => .exit c m ((w, st.2 ++ [(u, b, len)]), b')

/-- The device `dev` with its callback replaced by the recording one. -/
def recordingDevice {U W α : Type} (dev : zz_audio_Device U W α) :
    zz_audio_Device U (W × List (U × Buf α × Int)) α :=
  { callback := recorded dev.callback, userdata := dev.userdata }

/-- A device whose callback writes nothing and reports not filled. -/
def silentDevice : zz_audio_Device Unit Unit Int :=
  { callback := fun _ w b _ => .ret 0 (w, b), userdata := () }

/-- A device whose callback writes nothing and yet reports filled. -/
def idleFilledDevice : zz_audio_Device Unit Unit Int :=
  { callback := fun _ w b _ => .ret 1 (w, b), userdata := () }


/-- What a run of calls lets one observe, call by call: the return value, the cursor and the
`playing` flag after the call, the number of end-signal firings since the trigger count `base`,
and the stream after the call. -/
def observed {α : Type} (base : Nat)
    (run : Option (List (Int × zz_audio_SamplePlayer α × Buf α))) :
    Option (List (Int × Int × Int × Int × Buf α)) :=
  run.map (fun tr => tr.map (fun r =>
    (r.1, r.2.1.pos, r.2.1.playing, (r.2.1.end_signal.fired : Int) - (base : Int), r.2.2)))


/-! ## Sample arithmetic of `float` -/

/-- A partial model of the C type `float` as IEEE 754 binary32: `whole n` is the float of value
`n` for a whole number `n` that binary32 represents (24 significant bits, magnitude below
`2 ^ 128`); `other` is any value the model does not follow (fractions, negative zero,
infinities, NaN). -/
inductive CFloat where
  | whole (n : Int)
  | other

/-- The spacing of binary32 values around the whole magnitude `m`: `1` below `2 ^ 24`, doubling
with every further binary digit; `fuel` bounds the number of doublings. -/
def ulp32 : Nat → Nat → Int
  | 0, _ => 1
  | fuel + 1, m => if m < 2 ^ 24 then 1 else 2 * ulp32 fuel (m / 2)

/-- Rounding of the exact whole sum `s` to binary32, to nearest with ties to the even
significand: the nearest multiple of the spacing at `s`, and of two equally near ones the one
that is an even multiple. -/
def roundFloat32 (s : Int) : Int :=
  let q := ulp32 104 s.natAbs
  let lo := s / q * q
  if 2 * (s - lo) < q then lo
  else if q < 2 * (s - lo) then lo + q
  else if s / q % 2 = 0 then lo
  else lo + q

/-- The `float` addition `x + y` on the model: the exact sum of two whole values rounded to
binary32, `other` when the rounded sum overflows or an operand is not followed. -/
def CFloat.add : CFloat → CFloat → CFloat
  | .whole a, .whole b =>
    if (roundFloat32 (a + b)).natAbs < 2 ^ 128 then .whole (roundFloat32 (a + b)) else .other
  | _, _ => .other

instance : Zero CFloat := ⟨.whole 0⟩

instance : Add CFloat := ⟨CFloat.add⟩

/-- Zeroing leading bytes of positive zero leaves it zero; the result is not followed for any
other value. -/
instance : ZeroFill CFloat := ⟨fun _ x => match x with
  | .whole 0 => .whole 0
  | _ => .other⟩

/-- A mixer channel whose callback fills its `len / 4` samples with the constant `a` and reports
filled, for any sample type. -/
def fillChannel {α : Type} (a : α) : zz_audio_MixerChannel Unit Unit α :=
  { callback := fun _ w b len => .ret 1 (w, fun i => if 0 ≤ i ∧ i < len / 4 then a else b i),
    userdata := () }

/-- A mixer state over `float` samples with the given channels, working mutex, zeroed buffers
and an empty trace. -/
def floatMixer (chs : List (zz_audio_MixerChannel Unit Unit CFloat)) :
    MixerState Unit Unit CFloat :=
  { mixer := { mutex := { lockStatus := 0, unlockStatus := 0 }, buf := fun _ => 0,
               channels := chs },
    world := (), stream := fun _ => 0, trace := [] }

/-- The state and the scratch buffer after the callbacks of the channels have been called once
each, in list order, every one on its own `userdata`, on the state and the scratch buffer as the
one before left them, and with the same `len`; `none` when one of them ends in `exit`. -/
def callInOrder {U W α : Type} (len : Int) :
    List (zz_audio_MixerChannel U W α) → W → Buf α → Option (W × Buf α)
  | [], w, b => some (w, b)
  | ch :: next, w, b =>
    match ch.callback ch.userdata w b len with
    | .exit _ _ _ => none
    | .ret _ (w, b) => callInOrder len next w b

/-- A channel whose callback counts its calls in the state, writes the count into sample 0 of
the scratch buffer and reports filled. -/
def countingChannel : zz_audio_MixerChannel Unit Nat Int :=
  { callback := fun _ n b _ => .ret 1 (n + 1, b.write 0 (n + 1)), userdata := () }

/-- A mixer state over three counting channels, with working mutex, the call count `0` and an
empty trace. -/
def countingMixer : MixerState Unit Nat Int :=
  { mixer := { mutex := { lockStatus := 0, unlockStatus := 0 }, buf := fun _ => 9,
               channels := [countingChannel, countingChannel, countingChannel] },
    world := 0, stream := staleStream, trace := [] }


/-- The contributions to output sample `i` of one mix over the channels `chs`: for every channel
that reports filled (`f ch w` is its return value), sample `i` of the block it writes
(`blk ch w`), in list order. -/
def contributions {U W α : Type} (f : zz_audio_MixerChannel U W α → W → Int)
    (blk : zz_audio_MixerChannel U W α → W → Buf α) (w : W)
    (chs : List (zz_audio_MixerChannel U W α)) (i : Int) : List α :=
  (chs.filter (fun ch => f ch w ≠ 0)).map (fun ch => blk ch w i)

/-- The `filled` value the callback of `ch` returns when it is called in the state `w`, read off
a call on a zeroed scratch buffer. -/
def filledOf {U W α : Type} [Zero α] (len : Int) (ch : zz_audio_MixerChannel U W α) (w : W) :
    Int :=
  match ch.callback ch.userdata w (fun _ => 0) len with
  | .ret v _ => v
  | .exit _ _ _ => 0

/-- The scratch buffer as the callback of `ch` leaves it when it is called in the state `w`,
read off a call on a zeroed scratch buffer. -/
def blockOf {U W α : Type} [Zero α] (len : Int) (ch : zz_audio_MixerChannel U W α) (w : W) :
    Buf α :=
  match ch.callback ch.userdata w (fun _ => 0) len with
  | .ret _ (_, b) => b
  | .exit _ _ (_, b) => b

/-- A mixer channel that plays a SamplePlayer. The shared state holds two player records;
`userdata` tells which of them the `userdata` pointer of the channel refers to, and the callback
is `zz_audio_SamplePlayer_cb` on that record. -/
def playerChannel (α : Type) [Zero α] [ZeroFill α] (first : Bool) :
    zz_audio_MixerChannel Bool (zz_audio_SamplePlayer α × zz_audio_SamplePlayer α) α :=
  { callback := fun u w b len =>
      match zz_audio_SamplePlayer_cb (if u then w.1 else w.2) b len with
      | .ret v (p, b') => .ret v (if u then (p, w.2) else (w.1, p), b')
      | .exit c m (p, b') => .exit c m (if u then (p, w.2) else (w.1, p), b'),
    userdata := first }

/-- A playing player over ten frames whose every sample is `a`. -/
def constPlayer {α : Type} (a : α) (channels pos : Int) : zz_audio_SamplePlayer α :=
  { buf := fun _ => a, frames := 10, channels := channels, pos := pos, playing := 1,
    end_signal := { fired := 0 } }

/-- A mixer state over `float` samples with the given channels, whose state holds a stereo
player of the constant `3` at its start and a mono player of the constant `4` at frame 2; working
mutex, zeroed buffers and an empty trace. -/
def playerMixer
    (chs : List (zz_audio_MixerChannel Bool
      (zz_audio_SamplePlayer CFloat × zz_audio_SamplePlayer CFloat) CFloat)) :
    MixerState Bool (zz_audio_SamplePlayer CFloat × zz_audio_SamplePlayer CFloat) CFloat :=
  { mixer := { mutex := { lockStatus := 0, unlockStatus := 0 }, buf := fun _ => 0,
               channels := chs },
    world := (constPlayer (CFloat.whole 3) 2 0, constPlayer (CFloat.whole 4) 1 2),
    stream := fun _ => 0, trace := [] }

/-! ## Memory accesses of the SamplePlayer -/

/-- The element offsets `off, off + 1, ..., off + n - 1`; none when `n <= 0`. -/
def span (off n : Int) : List Int :=
  (List.range n.toNat).map (fun (k : Nat) => off + (k : Int))

/-- The offsets `memcpy(dst + d, src + s, n)` reads from `src` and writes to `dst`. -/
def memcpyAccess (d s n : Int) : List Int × List Int :=
  (span s (n / sizeofFloat), span d (n / sizeofFloat))

/-- The offsets `memset(p + off, 0, n)` writes: the whole objects and, when `n` is not a
multiple of `sizeof(float)`, the object covered in part. -/
def memsetAccess (off n : Int) : List Int :=
  span off (n / sizeofFloat) ++ (if n % sizeofFloat ≠ 0 then [off + n / sizeofFloat] else [])

/-- The accesses of the mono loop run for `n` iterations from the pointers `(s, d)`: each
iteration reads `*(src++)` and writes `*(dst++)` twice. The result is the list of source offsets
read, the list of stream offsets written, and the final `dst`. -/
def upmixAccess : Nat → Int → Int → List Int × List Int × Int
  | 0, _, d => ([], [], d)
  | n + 1, s, d =>
    (s :: (upmixAccess n (s + 1) (d + 2)).1, d :: (d + 1) :: (upmixAccess n (s + 1) (d + 2)).2.1,
      (upmixAccess n (s + 1) (d + 2)).2.2)

/-- The accesses of `switch (player->channels)`: source offsets read, stream offsets written,
and `dst` after the copy. -/
def copyFramesAccess {α : Type} (player : zz_audio_SamplePlayer α) (frame_count : Int)
    (src dst : Int) : List Int × List Int × Int :=
  if player.channels = 2 then
    ((memcpyAccess dst src (toSizeT (toSizeT (2 * frame_count) * sizeofFloat))).1,
      (memcpyAccess dst src (toSizeT (toSizeT (2 * frame_count) * sizeofFloat))).2,
      dst + 2 * frame_count)
  else if player.channels = 1 then upmixAccess frame_count.toNat src dst
  else ([], [], dst)

/-- Lines 85-87 of `zz_audio_SamplePlayer_cb`: the locals `frame_count` and `zero_count`. -/
def blockCounts {α : Type} (player : zz_audio_SamplePlayer α) (frames : Int) : Int × Int :=
  let frame_count := MIN (player.frames - player.pos) frames
  let zero_count := frames - frame_count
  (frame_count, zero_count)

/-- The accesses of lines 84-109 of `zz_audio_SamplePlayer_cb`: the offsets of `player->buf`
read and the offsets of `stream` written by the copy and by the zero fill. -/
def playBlockAccess {α : Type} (player : zz_audio_SamplePlayer α) (frames : Int) :
    List Int × List Int :=
  let frame_count := (blockCounts player frames).1
  let zero_count := (blockCounts player frames).2
  let src := intMul player.pos player.channels
  let dst := 0
  let copied := copyFramesAccess player frame_count src dst
  let zeroed :=
    if zero_count > 0 then
      memsetAccess copied.2.2 (toSizeT (toSizeT (2 * zero_count) * sizeofFloat))
    else []
  (copied.1, copied.2.1 ++ zeroed)

/-- The accesses of one `zz_audio_SamplePlayer_cb` call: none when the call returns at line 82,
those of the block otherwise. -/
def playerAccess {α : Type} (player : zz_audio_SamplePlayer α) (len : Int) :
    List Int × List Int :=
  let frames := toInt (toSizeT len / (2 * sizeofFloat))
  let player := autoPause (clampPos player)
  if player.playing = 0 then ([], [])
  else playBlockAccess player frames

/-- The locals `frame_count` and `zero_count` of one `zz_audio_SamplePlayer_cb` call; `none`
when the call returns at line 82 before computing them. -/
def playerCounts {α : Type} (player : zz_audio_SamplePlayer α) (len : Int) :
    Option (Int × Int) :=
  let frames := toInt (toSizeT len / (2 * sizeofFloat))
  let player := autoPause (clampPos player)
  if player.playing = 0 then none
  else some (blockCounts player frames)


theorem frames_of_len (len : Int) (h0 : 0 ≤ len) (h1 : len < 2 ^ 31) :
    toInt (toSizeT len / (2 * sizeofFloat)) = len / 8 := by
  unfold toInt toSizeT sizeofFloat
  omega

theorem bytes_of_count (k : Int) (h0 : 0 ≤ k) (h1 : k < 2 ^ 31) :
    toSizeT (toSizeT (2 * k) * sizeofFloat) = 8 * k := by
  unfold toSizeT sizeofFloat
  omega

theorem MIN_eq_min (x y : Int) : MIN x y = min x y := by
  unfold MIN
  split <;> omega

/-! ## The copy loop -/

theorem upmixLoop_fst {α : Type} (buf : Buf α) (n : Nat) (s d : Int) (stream : Buf α) :
    (upmixLoop buf n (s, d, stream)).1 = s + n ∧ (upmixLoop buf n (s, d, stream)).2.1 = d + 2 * n := by
  induction n generalizing s d stream with
  | zero => simp [upmixLoop]
  | succ n ih =>
    simp only [upmixLoop]
    obtain ⟨h1, h2⟩ := ih (s + 1) (d + 2) ((stream.write d (buf s)).write (d + 1) (buf s))
    rw [h1, h2]
    push_cast
    constructor <;> ring

theorem upmixLoop_stream {α : Type} (buf : Buf α) (n : Nat) (s d : Int) (stream : Buf α) (j : Int) :
    (upmixLoop buf n (s, d, stream)).2.2 j =
      if d ≤ j ∧ j < d + 2 * n then buf (s + (j - d) / 2) else stream j := by
  induction n generalizing s d stream with
  | zero =>
    simp only [upmixLoop, Nat.cast_zero, mul_zero, add_zero]
    rw [if_neg (by omega)]
  | succ n ih =>
    simp only [upmixLoop]
    rw [ih]
    push_cast
    by_cases h1 : d + 2 ≤ j ∧ j < d + 2 + 2 * (n : Int)
    · rw [if_pos h1, if_pos (by omega)]
      congr 1
      omega
    · rw [if_neg h1]
      by_cases h2 : j = d
      · subst h2
        rw [if_pos (by omega)]
        simp [Buf.write]
      · by_cases h3 : j = d + 1
        · subst h3
          rw [if_pos (by omega)]
          simp only [Buf.write, if_true]
          congr 1
          omega
        · rw [if_neg (by omega)]
          simp [Buf.write, h2, h3]

/-! ## The stages of `zz_audio_SamplePlayer_cb` -/

theorem clampPos_of_range {α : Type} (p : zz_audio_SamplePlayer α) (h0 : 0 ≤ p.pos)
    (h1 : p.pos ≤ p.frames) : clampPos p = p := by
  unfold clampPos
  have h : ¬ p.pos < 0 := by omega
  simp only [h, if_false]
  rw [if_neg (by omega)]

theorem autoPause_of_lt {α : Type} (p : zz_audio_SamplePlayer α) (h : p.pos < p.frames) :
    autoPause p = p := by
  unfold autoPause
  rw [if_neg (by intro hc; omega)]

theorem autoPause_of_paused {α : Type} (p : zz_audio_SamplePlayer α) (h : p.playing = 0) :
    autoPause p = p := by
  unfold autoPause
  rw [if_neg (by intro hc; exact hc.1 h)]

theorem intMul_of_range (a b : Int) (h0 : -2 ^ 31 ≤ a * b) (h1 : a * b < 2 ^ 31) :
    intMul a b = a * b := by
  unfold intMul
  split
  · unfold toInt
    generalize a * b = x at h0 h1 ⊢
    omega
  · rfl

theorem intMul_one (a : Int) : intMul a 1 = a := by
  unfold intMul
  rw [mul_one]
  split
  · unfold toInt
    omega
  · rfl

/-- The block played by `playBlock`, with the source offset `src` as the code computes it. -/
theorem playBlock_eq_src {α : Type} [Zero α] [ZeroFill α] (p : zz_audio_SamplePlayer α)
    (stream : Buf α) (q : Int)
    (hpos : p.pos < p.frames) (hch : p.channels = 1 ∨ p.channels = 2)
    (hq0 : 0 ≤ q) (hq : q < 2 ^ 31) :
    ∃ out : Buf α,
      playBlock p stream q =
        .ret 1 ({ p with
                  pos := p.pos + min (p.frames - p.pos) q
                  end_signal :=
                    if p.pos + min (p.frames - p.pos) q ≥ p.frames then
                      zz_trigger_fire p.end_signal
                    else p.end_signal }, out) ∧
      ∀ j : Int, out j =
        if 0 ≤ j ∧ j < 2 * min (p.frames - p.pos) q then
          (if p.channels = 2 then p.buf (intMul p.pos p.channels + j)
            else p.buf (intMul p.pos p.channels + j / 2))
        else if 0 ≤ j ∧ j < 2 * q then 0
        else stream j := by
  have hc0 : 0 ≤ min (p.frames - p.pos) q := by omega
  have hc1 : min (p.frames - p.pos) q ≤ q := by omega
  unfold playBlock
  simp only [MIN_eq_min]
  generalize hc : min (p.frames - p.pos) q = c at *
  generalize intMul p.pos p.channels = s0
  have hz : toSizeT (toSizeT (2 * (q - c)) * sizeofFloat) = 8 * (q - c) :=
    bytes_of_count (q - c) (by omega) (by omega)
  rcases hch with hch | hch
  · have hcf : copyFrames p stream c s0 0 =
        some (upmixLoop p.buf c.toNat (s0, 0, stream)) := by
      unfold copyFrames
      rw [if_neg (by omega), if_pos hch]
    rw [hcf]
    obtain ⟨h1, h2⟩ := upmixLoop_fst p.buf c.toNat s0 0 stream
    have h3 := upmixLoop_stream p.buf c.toNat s0 0 stream
    rcases hu : upmixLoop p.buf c.toNat (s0, 0, stream) with ⟨s', d', st'⟩
    rw [hu] at h1 h2 h3
    simp only at h1 h2 h3 ⊢
    have hcn : ((c.toNat : Nat) : Int) = c := Int.toNat_of_nonneg hc0
    rw [hcn] at h1 h2 h3
    refine ⟨if q - c > 0 then memset st' d' (toSizeT (toSizeT (2 * (q - c)) * sizeofFloat))
      else st', ?_, ?_⟩
    · by_cases hge : p.pos + c ≥ p.frames
      · rw [if_pos hge, if_pos hge]
      · rw [if_neg hge, if_neg hge]
    · intro j
      rw [hz, h2]
      by_cases hzc : q - c > 0
      · rw [if_pos hzc]
        unfold memset sizeofFloat
        rw [h3]
        by_cases hj1 : 0 ≤ j ∧ j < 2 * c
        · rw [if_neg (by omega), if_neg (by omega), if_pos (by omega), if_pos hj1, if_neg (by omega)]
          congr 1
          omega
        · rw [if_neg hj1]
          by_cases hj2 : 0 ≤ j ∧ j < 2 * q
          · rw [if_pos (by omega), if_pos hj2]
          · rw [if_neg (by omega), if_neg (by omega), if_neg (by omega), if_neg hj2]
      · rw [if_neg hzc, h3]
        by_cases hj1 : 0 ≤ j ∧ j < 2 * c
        · rw [if_pos (by omega), if_pos hj1, if_neg (by omega)]
          congr 1
          omega
        · rw [if_neg (by omega), if_neg hj1, if_neg (by omega)]
  · have hcf : copyFrames p stream c s0 0 =
        some (s0 + 2 * c, 0 + 2 * c, memcpy stream 0 p.buf s0 (8 * c)) := by
      unfold copyFrames
      rw [if_pos hch, bytes_of_count c hc0 (by omega)]
    rw [hcf]
    simp only
    refine ⟨if q - c > 0 then memset (memcpy stream 0 p.buf s0 (8 * c)) (0 + 2 * c)
      (toSizeT (toSizeT (2 * (q - c)) * sizeofFloat)) else memcpy stream 0 p.buf s0 (8 * c),
      ?_, ?_⟩
    · by_cases hge : p.pos + c ≥ p.frames
      · rw [if_pos hge, if_pos hge]
      · rw [if_neg hge, if_neg hge]
    · intro j
      rw [hz]
      by_cases hzc : q - c > 0
      · rw [if_pos hzc]
        unfold memset memcpy sizeofFloat
        by_cases hj1 : 0 ≤ j ∧ j < 2 * c
        · rw [if_neg (by omega), if_neg (by omega), if_pos (by omega), if_pos hj1, if_pos hch]
          congr 1
          omega
        · rw [if_neg hj1]
          by_cases hj2 : 0 ≤ j ∧ j < 2 * q
          · rw [if_pos (by omega), if_pos hj2]
          · rw [if_neg (by omega), if_neg (by omega), if_neg (by omega), if_neg hj2]
      · rw [if_neg hzc]
        unfold memcpy sizeofFloat
        by_cases hj1 : 0 ≤ j ∧ j < 2 * c
        · rw [if_pos (by omega), if_pos hj1, if_pos hch]
          congr 1
          omega
        · rw [if_neg (by omega), if_neg hj1, if_neg (by omega)]

/-- The block played by `playBlock` when the `int` product `pos * channels` does not wrap. -/
theorem playBlock_eq {α : Type} [Zero α] [ZeroFill α] (p : zz_audio_SamplePlayer α)
    (stream : Buf α) (q : Int)
    (hpos : p.pos < p.frames) (hch : p.channels = 1 ∨ p.channels = 2)
    (hq0 : 0 ≤ q) (hq : q < 2 ^ 31)
    (hsrc : intMul p.pos p.channels = p.pos * p.channels) :
    ∃ out : Buf α,
      playBlock p stream q =
        .ret 1 ({ p with
                  pos := p.pos + min (p.frames - p.pos) q
                  end_signal :=
                    if p.pos + min (p.frames - p.pos) q ≥ p.frames then
                      zz_trigger_fire p.end_signal
                    else p.end_signal }, out) ∧
      ∀ j : Int, out j =
        if 0 ≤ j ∧ j < 2 * min (p.frames - p.pos) q then
          (if p.channels = 2 then p.buf (p.pos * 2 + j) else p.buf (p.pos + j / 2))
        else if 0 ≤ j ∧ j < 2 * q then 0
        else stream j := by
  obtain ⟨out, ho, hj⟩ := playBlock_eq_src p stream q hpos hch hq0 hq
  refine ⟨out, ho, ?_⟩
  intro j
  rw [hj j, hsrc]
  rcases hch with h | h
  · have h12 : ¬ ((1 : Int) = 2) := by decide
    simp only [h, mul_one, h12, if_false]
  · simp only [h, if_true]

theorem clampPos_fields {α : Type} (p : zz_audio_SamplePlayer α) :
    (clampPos p).buf = p.buf ∧ (clampPos p).frames = p.frames ∧
      (clampPos p).channels = p.channels ∧ (clampPos p).playing = p.playing ∧
      (clampPos p).end_signal = p.end_signal := by
  unfold clampPos
  by_cases h : p.pos < 0
  · simp only [h, if_true]
    split <;> simp
  · simp only [h, if_false]
    split <;> simp

theorem cb_playing {α : Type} [Zero α] [ZeroFill α] (p : zz_audio_SamplePlayer α)
    (stream : Buf α) (len : Int) (hplay : p.playing ≠ 0) (hpos0 : 0 ≤ p.pos)
    (hpos : p.pos < p.frames) (hlen0 : 0 ≤ len) (hlen : len < 2 ^ 31) :
    zz_audio_SamplePlayer_cb p stream len = playBlock p stream (len / 8) := by
  unfold zz_audio_SamplePlayer_cb
  simp only [frames_of_len len hlen0 hlen]
  rw [clampPos_of_range p hpos0 (by omega), autoPause_of_lt p hpos, if_neg hplay]

theorem cb_paused {α : Type} [Zero α] [ZeroFill α] (p : zz_audio_SamplePlayer α)
    (stream : Buf α) (len : Int) (hplay : p.playing = 0) :
    zz_audio_SamplePlayer_cb p stream len = .ret 0 (clampPos p, stream) := by
  have h : (clampPos p).playing = 0 := by rw [(clampPos_fields p).2.2.2.1, hplay]
  unfold zz_audio_SamplePlayer_cb
  simp only
  rw [autoPause_of_paused _ h, if_pos h]

theorem cb_at_end {α : Type} [Zero α] [ZeroFill α] (p : zz_audio_SamplePlayer α)
    (stream : Buf α) (len : Int) (hplay : p.playing ≠ 0)
    (hend : (clampPos p).pos = p.frames) :
    zz_audio_SamplePlayer_cb p stream len =
      .ret 0 ({ p with pos := p.frames, playing := 0 }, stream) := by
  obtain ⟨hb, hf, hc, hp, hs⟩ := clampPos_fields p
  have ha : autoPause (clampPos p) = { p with pos := p.frames, playing := 0 } := by
    unfold autoPause
    rw [if_pos ⟨by rw [hp]; exact hplay, by rw [hend, hf]⟩, hb, hf, hc, hend, hs]
  unfold zz_audio_SamplePlayer_cb
  simp only
  rw [ha, if_pos rfl]

/-- The stereo block when the `int` product `pos * channels` of line 88 does not wrap
(`2 * pos < 2 ^ 31`): a playing stereo player inside its data returns filled, and the output
holds `copyCount = min(frames - pos, len / 8)` frames copied from `buf` at `2 * pos`, followed
by zeros up to the close of the `len / 8` requested frames. -/
theorem stereo_block_copied_then_silence {α : Type} [Zero α] [ZeroFill α]
    (p : zz_audio_SamplePlayer α) (stream : Buf α) (len : Int)
    (hch : p.channels = 2) (hplay : p.playing ≠ 0) (hpos0 : 0 ≤ p.pos) (hpos : p.pos < p.frames)
    (hlen0 : 0 ≤ len) (hlen : len < 2 ^ 31) (hsrc : 2 * p.pos < 2 ^ 31) :
    ∃ (p' : zz_audio_SamplePlayer α) (out : Buf α),
      zz_audio_SamplePlayer_cb p stream len = .ret 1 (p', out) ∧
      (∀ j : Int, 0 ≤ j → j < 2 * min (p.frames - p.pos) (len / 8) →
        out j = p.buf (2 * p.pos + j)) ∧
      (∀ j : Int, 2 * min (p.frames - p.pos) (len / 8) ≤ j → j < 2 * (len / 8) → out j = 0) := by
  have hmul : intMul p.pos p.channels = p.pos * p.channels := by
    rw [hch]
    exact intMul_of_range p.pos 2 (by omega) (by omega)
  obtain ⟨out, hout, hj⟩ :=
    playBlock_eq p stream (len / 8) hpos (Or.inr hch) (by omega) (by omega) hmul
  rw [cb_playing p stream len hplay hpos0 hpos hlen0 hlen, hout]
  refine ⟨_, out, rfl, ?_, ?_⟩
  · intro j h0 h1
    rw [hj, if_pos ⟨h0, h1⟩, if_pos hch, mul_comm]
  · intro j h0 h1
    rw [hj, if_neg (by omega), if_pos (by omega)]

/-- C1, as stated, fails on the code where the `int` product `pos * channels` of line 88 wraps.
A playing stereo player with `frames = 2 ^ 30 + 1` and `pos = 2 ^ 30` has `channels = 2`,
`playing != 0` and `0 <= pos < frames`, and a call for one frame (`len = 8`) returns filled; but
`src` is `buf - 2 ^ 31`, so with the sample at offset `i` of the source being `i` the output
holds `-2147483648, -2147483647`, and not `buf[2 * pos + j]`, that is
`2147483648, 2147483649`. -/
theorem stereo_block_wraps_at_large_pos :
    (largeStereo.channels = 2 ∧ largeStereo.playing ≠ 0 ∧ 0 ≤ largeStereo.pos ∧
      largeStereo.pos < largeStereo.frames ∧ (0 : Int) ≤ 8 ∧ (8 : Int) < 2 ^ 31) ∧
    intMul largeStereo.pos largeStereo.channels = -2147483648 ∧
    ∃ (p' : zz_audio_SamplePlayer Int) (out : Buf Int),
      zz_audio_SamplePlayer_cb largeStereo staleStream 8 = .ret 1 (p', out) ∧
      out 0 = -2147483648 ∧ out 1 = -2147483647 ∧
      largeStereo.buf (2 * largeStereo.pos + 0) = 2147483648 ∧
      largeStereo.buf (2 * largeStereo.pos + 1) = 2147483649 ∧
      out 0 ≠ largeStereo.buf (2 * largeStereo.pos + 0) := by
  have hm : intMul largeStereo.pos largeStereo.channels = -2147483648 := by decide
  obtain ⟨out, hout, hj⟩ :=
    playBlock_eq_src largeStereo staleStream (8 / 8) (by decide) (Or.inr rfl) (by decide)
      (by decide)
  have hcb := cb_playing largeStereo staleStream 8 (by decide) (by decide) (by decide)
    (by decide) (by norm_num)
  have e0 : out 0 = -2147483648 := by
    rw [hj 0, if_pos (by decide), if_pos (show largeStereo.channels = 2 from rfl), hm]
    rfl
  have e1 : out 1 = -2147483647 := by
    rw [hj 1, if_pos (by decide), if_pos (show largeStereo.channels = 2 from rfl), hm]
    rfl
  refine ⟨⟨rfl, by decide, by decide, by decide, by decide, by norm_num⟩, hm, _, out,
    hcb.trans hout, e0, e1, by decide, by decide, ?_⟩
  rw [e0]
  decide

/-- C2: a playing mono player inside its data writes every copied sample `buf[pos + i]` to both
slots `2 * i` and `2 * i + 1` of the output and zeros the rest of the block; the two-sample buffer
`[a, b]` (such as `[0.5, -0.5]`) asked for a 2-frame block gives `[a, a, b, b]`. -/
theorem mono_block_upmixed {α : Type} [Zero α] [ZeroFill α]
    (p : zz_audio_SamplePlayer α) (stream : Buf α) (len : Int)
    (hch : p.channels = 1) (hplay : p.playing ≠ 0) (hpos0 : 0 ≤ p.pos) (hpos : p.pos < p.frames)
    (hlen0 : 0 ≤ len) (hlen : len < 2 ^ 31) :
    (∃ (p' : zz_audio_SamplePlayer α) (out : Buf α),
      zz_audio_SamplePlayer_cb p stream len = .ret 1 (p', out) ∧
      (∀ i : Int, 0 ≤ i → i < min (p.frames - p.pos) (len / 8) →
        out (2 * i) = p.buf (p.pos + i) ∧ out (2 * i + 1) = p.buf (p.pos + i)) ∧
      (∀ j : Int, 2 * min (p.frames - p.pos) (len / 8) ≤ j → j < 2 * (len / 8) → out j = 0)) ∧
    (∀ (a b : α) (s : Buf α), ∃ (p' : zz_audio_SamplePlayer α) (out : Buf α),
      zz_audio_SamplePlayer_cb (monoTwo a b) s 16 = .ret 1 (p', out) ∧
      [out 0, out 1, out 2, out 3] = [a, a, b, b]) := by
  have key : ∀ (r : zz_audio_SamplePlayer α) (s : Buf α) (l : Int), r.channels = 1 →
      r.playing ≠ 0 → 0 ≤ r.pos → r.pos < r.frames → 0 ≤ l → l < 2 ^ 31 →
      ∃ (p' : zz_audio_SamplePlayer α) (out : Buf α),
        zz_audio_SamplePlayer_cb r s l = .ret 1 (p', out) ∧
        (∀ i : Int, 0 ≤ i → i < min (r.frames - r.pos) (l / 8) →
          out (2 * i) = r.buf (r.pos + i) ∧ out (2 * i + 1) = r.buf (r.pos + i)) ∧
        (∀ j : Int, 2 * min (r.frames - r.pos) (l / 8) ≤ j → j < 2 * (l / 8) → out j = 0) := by
    intro r s l hch hplay hpos0 hpos hlen0 hlen
    obtain ⟨out, hout, hj⟩ :=
      playBlock_eq r s (l / 8) hpos (Or.inl hch) (by omega) (by omega)
        (by rw [hch, intMul_one, mul_one])
    rw [cb_playing r s l hplay hpos0 hpos hlen0 hlen, hout]
    refine ⟨_, out, rfl, ?_, ?_⟩
    · intro i h0 h1
      constructor
      · rw [hj, if_pos (by omega), if_neg (by omega)]
        congr 1
        omega
      · rw [hj, if_pos (by omega), if_neg (by omega)]
        congr 1
        omega
    · intro j h0 h1
      rw [hj, if_neg (by omega), if_pos (by omega)]
  refine ⟨key p stream len hch hplay hpos0 hpos hlen0 hlen, ?_⟩
  intro a b s
  obtain ⟨p', out, h1, h2, -⟩ :=
    key (monoTwo a b) s 16 rfl (by norm_num [monoTwo]) (by norm_num [monoTwo])
      (by norm_num [monoTwo]) (by decide) (by norm_num)
  refine ⟨p', out, h1, ?_⟩
  have e0 := h2 0 (by decide) (by norm_num [monoTwo])
  have e1 := h2 1 (by decide) (by norm_num [monoTwo])
  simp only [monoTwo] at e0 e1
  norm_num at e0 e1
  rw [e0.1, e0.2, e1.1, e1.2]

theorem mono_block_upmixed_witness :
    ((monoTwo (5 : Int) (-5)).channels = 1 ∧ (monoTwo (5 : Int) (-5)).playing ≠ 0 ∧
        0 ≤ (monoTwo (5 : Int) (-5)).pos ∧
        (monoTwo (5 : Int) (-5)).pos < (monoTwo (5 : Int) (-5)).frames ∧
        (0 : Int) ≤ 16 ∧ (16 : Int) < 2 ^ 31) ∧
      ∃ (p' : zz_audio_SamplePlayer Int) (out : Buf Int),
        zz_audio_SamplePlayer_cb (monoTwo (5 : Int) (-5)) staleStream 16 = .ret 1 (p', out) ∧
        [out 0, out 1, out 2, out 3] = [5, 5, -5, -5] :=
  ⟨⟨rfl, by decide, by decide, by decide, by decide, by norm_num⟩,
    (mono_block_upmixed (monoTwo (5 : Int) (-5)) staleStream 16 rfl (by decide) (by decide)
      (by decide) (by decide) (by norm_num)).2 5 (-5) staleStream⟩

/-! ## The mixer loops -/

theorem addLoop_apply {α : Type} [Add α] (buf : Buf α) (k : Nat) (i : Int) (stream : Buf α)
    (j : Int) :
    addLoop buf k i stream j = if i ≤ j ∧ j < i + k then stream j + buf j else stream j := by
  induction k generalizing i stream with
  | zero =>
    simp only [addLoop, Nat.cast_zero, add_zero]
    rw [if_neg (by omega)]
  | succ k ih =>
    simp only [addLoop]
    rw [ih]
    push_cast
    by_cases h1 : i + 1 ≤ j ∧ j < i + 1 + (k : Int)
    · rw [if_pos h1, if_pos (by omega)]
      simp only [Buf.write]
      rw [if_neg (by omega)]
    · rw [if_neg h1]
      by_cases h2 : j = i
      · subst h2
        rw [if_pos (by omega)]
        simp [Buf.write]
      · rw [if_neg (by omega)]
        simp [Buf.write, h2]

theorem mixLoop_ret {U W α : Type} [Add α] (len : Int)
    (chs : List (zz_audio_MixerChannel U W α)) (st : MixerState U W α)
    (outs : List (Int × Buf α))
    (h : channelOutputs len chs st.world st.mixer.buf = some outs) :
    ∃ st' : MixerState U W α, mixLoop len chs st = .ret () st' ∧
      st'.mixer.mutex = st.mixer.mutex ∧ st'.mixer.channels = st.mixer.channels ∧
      st'.trace = st.trace ++ chs.map (fun ch => Event.call ch len) ∧
      ∀ i : Int, st'.stream i =
        if 0 ≤ i ∧ i < toInt (toSizeT len / sizeofFloat) then mixedSample (st.stream i) outs i
        else st.stream i := by
  induction chs generalizing st outs with
  | nil =>
    simp only [channelOutputs, Option.some.injEq] at h
    subst h
    refine ⟨st, rfl, rfl, rfl, by simp, ?_⟩
    intro i
    simp [mixedSample]
  | cons ch next ih =>
    simp only [channelOutputs] at h
    simp only [mixLoop]
    rcases hcb : ch.callback ch.userdata st.world st.mixer.buf len with ⟨filled, w, b⟩ | ⟨c, m, s⟩
    · rw [hcb] at h
      simp only [Option.map_eq_some'] at h
      obtain ⟨outs', ho, rfl⟩ := h
      simp only
      by_cases hf : filled ≠ 0
      · rw [if_pos hf]
        obtain ⟨st', h1, h2, h3, h4, h5⟩ := ih
          { mixer := { mutex := st.mixer.mutex, buf := b, channels := st.mixer.channels },
            world := w,
            stream := addLoop b (toInt (toSizeT len / sizeofFloat)).toNat 0 st.stream,
            trace := st.trace ++ [Event.call ch len] } outs' ho
        refine ⟨st', h1, h2, h3, ?_, ?_⟩
        · rw [h4]
          simp
        · intro i
          rw [h5 i]
          simp only
          rw [addLoop_apply]
          by_cases hi : 0 ≤ i ∧ i < toInt (toSizeT len / sizeofFloat)
          · rw [if_pos hi, if_pos hi, if_pos (by omega)]
            simp [mixedSample, List.filter_cons, hf]
          · rw [if_neg hi, if_neg hi, if_neg (by omega)]
      · rw [if_neg hf]
        obtain ⟨st', h1, h2, h3, h4, h5⟩ := ih
          { mixer := { mutex := st.mixer.mutex, buf := b, channels := st.mixer.channels },
            world := w, stream := st.stream,
            trace := st.trace ++ [Event.call ch len] } outs' ho
        refine ⟨st', h1, h2, h3, ?_, ?_⟩
        · rw [h4]
          simp
        · intro i
          rw [h5 i]
          simp [mixedSample, List.filter_cons, hf]
    · rw [hcb] at h
      simp at h

theorem mixLoop_exit {U W α : Type} [Add α] (len : Int)
    (chs : List (zz_audio_MixerChannel U W α)) (st : MixerState U W α)
    (h : channelOutputs len chs st.world st.mixer.buf = none) :
    ∃ (c : Int) (m : String) (st' : MixerState U W α), mixLoop len chs st = .exit c m st' := by
  induction chs generalizing st with
  | nil => simp [channelOutputs] at h
  | cons ch next ih =>
    simp only [channelOutputs] at h
    simp only [mixLoop]
    rcases hcb : ch.callback ch.userdata st.world st.mixer.buf len with ⟨filled, w, b⟩ | ⟨c, m, s⟩
    · rw [hcb] at h
      simp only [Option.map_eq_none'] at h
      simp only
      by_cases hf : filled ≠ 0
      · rw [if_pos hf]
        exact ih _ h
      · rw [if_neg hf]
        exact ih _ h
    · exact ⟨c, m, _, rfl⟩

theorem mixer_cb_empty {U W α : Type} [Zero α] [Add α] [ZeroFill α]
    (st : MixerState U W α) (len : Int) (h : st.mixer.channels = []) :
    zz_audio_Mixer_cb st len = .ret 0 st := by
  unfold zz_audio_Mixer_cb
  rw [h]
  rfl

theorem mixer_cb_lock_failed {U W α : Type} [Zero α] [Add α] [ZeroFill α]
    (st : MixerState U W α) (len : Int) (hne : st.mixer.channels ≠ [])
    (hl : st.mixer.mutex.lockStatus ≠ 0) :
    ∃ (m : String) (st' : MixerState U W α), zz_audio_Mixer_cb st len = .exit 1 m st' := by
  unfold zz_audio_Mixer_cb
  rw [if_neg (by simpa using hne)]
  simp only
  rw [if_pos hl]
  exact ⟨_, _, rfl⟩

theorem mixer_cb_callback_exit {U W α : Type} [Zero α] [Add α] [ZeroFill α]
    (st : MixerState U W α) (len : Int) (hne : st.mixer.channels ≠ [])
    (hl : st.mixer.mutex.lockStatus = 0)
    (h : channelOutputs len st.mixer.channels st.world st.mixer.buf = none) :
    ∃ (c : Int) (m : String) (st' : MixerState U W α),
      zz_audio_Mixer_cb st len = .exit c m st' := by
  unfold zz_audio_Mixer_cb
  rw [if_neg (by simpa using hne)]
  simp only
  rw [if_neg (by simpa using hl)]
  obtain ⟨c, m, st', hx⟩ := mixLoop_exit len st.mixer.channels
    { st with stream := memset st.stream 0 (toSizeT len), trace := st.trace ++ [Event.lock] } h
  rw [hx]
  exact ⟨c, m, st', rfl⟩

theorem mixer_cb_through {U W α : Type} [Zero α] [Add α] [ZeroFill α]
    (st : MixerState U W α) (len : Int) (hne : st.mixer.channels ≠ [])
    (hl : st.mixer.mutex.lockStatus = 0) (outs : List (Int × Buf α))
    (h : channelOutputs len st.mixer.channels st.world st.mixer.buf = some outs) :
    ∃ st1 : MixerState U W α,
      st1.mixer.mutex = st.mixer.mutex ∧ st1.mixer.channels = st.mixer.channels ∧
      st1.trace = st.trace ++ [Event.lock] ++
        st.mixer.channels.map (fun ch => Event.call ch len) ++ [Event.unlock] ∧
      (∀ i : Int, st1.stream i =
        if 0 ≤ i ∧ i < toInt (toSizeT len / sizeofFloat) then
          mixedSample (memset st.stream 0 (toSizeT len) i) outs i
        else memset st.stream 0 (toSizeT len) i) ∧
      zz_audio_Mixer_cb st len =
        if st.mixer.mutex.unlockStatus ≠ 0 then
          .exit 1 "zz_audio_Mixer_cb: SDL_UnlockMutex() failed\n" st1
        else .ret 1 st1 := by
  obtain ⟨st', h1, h2, h3, h4, h5⟩ := mixLoop_ret len st.mixer.channels
    { st with stream := memset st.stream 0 (toSizeT len), trace := st.trace ++ [Event.lock] }
    outs h
  refine ⟨{ st' with trace := st'.trace ++ [Event.unlock] }, h2, h3, ?_, h5, ?_⟩
  · simp only [h4]
  · unfold zz_audio_Mixer_cb
    rw [if_neg (by simpa using hne)]
    simp only
    rw [if_neg (by simpa using hl), h1]
    simp only
    rw [h2]
theorem samples_of_len (len : Int) (h0 : 0 ≤ len) (h1 : len < 2 ^ 31) :
    toInt (toSizeT len / sizeofFloat) = len / 4 ∧ toSizeT len = len := by
  unfold toInt toSizeT sizeofFloat
  omega

theorem memset_zero_apply {α : Type} [Zero α] [ZeroFill α] (p : Buf α) (n i : Int)
    (h0 : 0 ≤ i) (h1 : i < n / 4) : memset p 0 n i = 0 := by
  unfold memset sizeofFloat
  rw [if_pos (by omega)]

/-- What a returning `zz_audio_Mixer_cb` call on a non-empty mixer has done. -/
theorem mixer_cb_returned {U W α : Type} [Zero α] [Add α] [ZeroFill α]
    (st : MixerState U W α) (len : Int) (hne : st.mixer.channels ≠ [])
    (v : Int) (st' : MixerState U W α) (hret : zz_audio_Mixer_cb st len = .ret v st') :
    v = 1 ∧ st.mixer.mutex.lockStatus = 0 ∧ st.mixer.mutex.unlockStatus = 0 ∧
    ∃ outs : List (Int × Buf α),
      channelOutputs len st.mixer.channels st.world st.mixer.buf = some outs ∧
      st'.mixer.channels = st.mixer.channels ∧
      st'.trace = st.trace ++ [Event.lock] ++
        st.mixer.channels.map (fun ch => Event.call ch len) ++ [Event.unlock] ∧
      ∀ i : Int, st'.stream i =
        if 0 ≤ i ∧ i < toInt (toSizeT len / sizeofFloat) then
          mixedSample (memset st.stream 0 (toSizeT len) i) outs i
        else memset st.stream 0 (toSizeT len) i := by
  by_cases hl : st.mixer.mutex.lockStatus = 0
  · rcases ho : channelOutputs len st.mixer.channels st.world st.mixer.buf with _ | outs
    · obtain ⟨c, m, s, hx⟩ := mixer_cb_callback_exit st len hne hl ho
      rw [hx] at hret
      cases hret
    · obtain ⟨st1, -, h2, h3, h4, h5⟩ := mixer_cb_through st len hne hl outs ho
      rw [h5] at hret
      by_cases hu : st.mixer.mutex.unlockStatus ≠ 0
      · rw [if_pos hu] at hret
        cases hret
      · rw [if_neg hu] at hret
        cases hret
        exact ⟨rfl, hl, by simpa using hu, outs, rfl, h2, h3, h4⟩
  · obtain ⟨m, s, hx⟩ := mixer_cb_lock_failed st len hne hl
    rw [hx] at hret
    cases hret

/-- C3: on a non-empty mixer and `0 <= len`, every output sample `i < len / 4` of a returned
`zz_audio_Mixer_cb` call is the sum, over the channels that reported filled, of sample `i` of the
scratch buffer as each left it, added in list order onto zero (the previous content of the output
plays no role); the call does return when both lock operations succeed and every callback
returns; and two channels that fill the block with the constants `a` and `b` give `a + b` at
every sample position. -/
theorem mixer_output_is_sum {U W α : Type} [Zero α] [Add α] [ZeroFill α]
    (st : MixerState U W α) (len : Int) (hne : st.mixer.channels ≠ [])
    (hlen0 : 0 ≤ len) (hlen : len < 2 ^ 31) :
    (∀ (v : Int) (st' : MixerState U W α), zz_audio_Mixer_cb st len = .ret v st' →
      ∃ outs : List (Int × Buf α),
        channelOutputs len st.mixer.channels st.world st.mixer.buf = some outs ∧
        ∀ i : Int, 0 ≤ i → i < len / 4 → st'.stream i = mixedSample 0 outs i) ∧
    (st.mixer.mutex.lockStatus = 0 → st.mixer.mutex.unlockStatus = 0 →
      channelOutputs len st.mixer.channels st.world st.mixer.buf ≠ none →
      ∃ st' : MixerState U W α, zz_audio_Mixer_cb st len = .ret 1 st') ∧
    (∀ (a b : α) (f1 f2 : Int) (s1 s2 : Buf α), (∀ x : α, 0 + x = x) →
      channelOutputs len st.mixer.channels st.world st.mixer.buf = some [(f1, s1), (f2, s2)] →
      f1 ≠ 0 → f2 ≠ 0 → (∀ i : Int, 0 ≤ i → i < len / 4 → s1 i = a ∧ s2 i = b) →
      ∀ (v : Int) (st' : MixerState U W α), zz_audio_Mixer_cb st len = .ret v st' →
        ∀ i : Int, 0 ≤ i → i < len / 4 → st'.stream i = a + b) := by
  obtain ⟨hn, hs⟩ := samples_of_len len hlen0 hlen
  have hA : ∀ (v : Int) (st' : MixerState U W α), zz_audio_Mixer_cb st len = .ret v st' →
      ∃ outs : List (Int × Buf α),
        channelOutputs len st.mixer.channels st.world st.mixer.buf = some outs ∧
        ∀ i : Int, 0 ≤ i → i < len / 4 → st'.stream i = mixedSample 0 outs i := by
    intro v st' hret
    obtain ⟨-, -, -, outs, ho, -, -, h4⟩ := mixer_cb_returned st len hne v st' hret
    refine ⟨outs, ho, ?_⟩
    intro i hi0 hi1
    rw [h4 i, hn, hs, if_pos ⟨hi0, hi1⟩, memset_zero_apply _ _ _ hi0 hi1]
  refine ⟨hA, ?_, ?_⟩
  · intro hl hu ho
    rcases ho' : channelOutputs len st.mixer.channels st.world st.mixer.buf with _ | outs
    · exact absurd ho' ho
    · obtain ⟨st1, -, -, -, -, h5⟩ := mixer_cb_through st len hne hl outs ho'
      rw [if_neg (by simpa using hu)] at h5
      exact ⟨st1, h5⟩
  · intro a b f1 f2 s1 s2 hz ho hf1 hf2 hconst v st' hret i hi0 hi1
    obtain ⟨outs, ho', hsum⟩ := hA v st' hret
    rw [ho] at ho'
    cases ho'
    rw [hsum i hi0 hi1]
    obtain ⟨e1, e2⟩ := hconst i hi0 hi1
    simp [mixedSample, List.filter_cons, hf1, hf2, e1, e2, hz]

theorem mixer_output_is_sum_witness :
    ((mixerOf [constChannel 3, constChannel 4]).mixer.channels ≠ [] ∧ (0 : Int) ≤ 16 ∧
        (16 : Int) < 2 ^ 31) ∧
      ∃ st' : MixerState Unit Unit Int,
        zz_audio_Mixer_cb (mixerOf [constChannel 3, constChannel 4]) 16 = .ret 1 st' ∧
        ∀ i : Int, 0 ≤ i → i < 16 / 4 → st'.stream i = 3 + 4 := by
  have hne : (mixerOf [constChannel 3, constChannel 4]).mixer.channels ≠ [] := by
    simp [mixerOf]
  have hout : channelOutputs 16 (mixerOf [constChannel 3, constChannel 4]).mixer.channels
      (mixerOf [constChannel 3, constChannel 4]).world
      (mixerOf [constChannel 3, constChannel 4]).mixer.buf =
      some [(1, fun i => if 0 ≤ i ∧ i < 16 / 4 then 3 else 9),
        (1, fun i => if 0 ≤ i ∧ i < 16 / 4 then 4 else
          if 0 ≤ i ∧ i < 16 / 4 then 3 else 9)] := rfl
  have H := mixer_output_is_sum (mixerOf [constChannel 3, constChannel 4]) 16 hne (by decide)
    (by norm_num)
  obtain ⟨st', hst⟩ := H.2.1 rfl rfl (by rw [hout]; simp)
  refine ⟨⟨hne, by decide, by norm_num⟩, st', hst, ?_⟩
  refine H.2.2 3 4 1 1 _ _ (fun x => zero_add x) hout (by decide) (by decide) ?_ 1 st' hst
  intro i h0 h1
  simp only [h0, h1, and_self, if_true]

theorem clampPos_pos {α : Type} (p : zz_audio_SamplePlayer α) :
    (clampPos p).pos = if (if p.pos < 0 then 0 else p.pos) > p.frames then p.frames
      else (if p.pos < 0 then 0 else p.pos) := by
  unfold clampPos
  by_cases h : p.pos < 0
  · simp only [h, if_true]
    split <;> rfl
  · simp only [h, if_false]
    split <;> rfl

theorem clampPos_range {α : Type} (p : zz_audio_SamplePlayer α) (hf : 0 ≤ p.frames) :
    0 ≤ (clampPos p).pos ∧ (clampPos p).pos ≤ p.frames := by
  rw [clampPos_pos]
  split <;> split <;> omega

theorem cb_clamped {α : Type} [Zero α] [ZeroFill α] (p : zz_audio_SamplePlayer α)
    (stream : Buf α) (len : Int) (hf : 0 ≤ p.frames) :
    zz_audio_SamplePlayer_cb p stream len = zz_audio_SamplePlayer_cb (clampPos p) stream len := by
  obtain ⟨h0, h1⟩ := clampPos_range p hf
  have hidem : clampPos (clampPos p) = clampPos p :=
    clampPos_of_range _ h0 (by rw [(clampPos_fields p).2.1]; exact h1)
  unfold zz_audio_SamplePlayer_cb
  rw [hidem]

theorem playBlock_unsupported {α : Type} [Zero α] [ZeroFill α] (p : zz_audio_SamplePlayer α)
    (stream : Buf α) (q : Int) (h1 : p.channels ≠ 1) (h2 : p.channels ≠ 2) :
    playBlock p stream q =
      .exit 1 ("unsupported number of sample channels: " ++ toString p.channels ++ "\n")
        (p, stream) := by
  have hcf : ∀ c s d, copyFrames p stream c s d = none := by
    intro c s d
    unfold copyFrames
    rw [if_neg h2, if_neg h1]
  unfold playBlock
  simp only [hcf]

/-- C4: with `frames >= 0`, any `pos` and `0 <= len`, whenever `zz_audio_SamplePlayer_cb` returns
the cursor it leaves satisfies `0 <= pos <= frames` (and `frames` is unchanged); it does return
unless the player is playing an unsupported channel count. -/
theorem cursor_within_frames_after_call {α : Type} [Zero α] [ZeroFill α]
    (p : zz_audio_SamplePlayer α) (stream : Buf α) (len : Int)
    (hf : 0 ≤ p.frames) (hlen0 : 0 ≤ len) (hlen : len < 2 ^ 31) :
    (∀ (v : Int) (p' : zz_audio_SamplePlayer α) (out : Buf α),
      zz_audio_SamplePlayer_cb p stream len = .ret v (p', out) →
        0 ≤ p'.pos ∧ p'.pos ≤ p'.frames ∧ p'.frames = p.frames) ∧
    (p.playing = 0 ∨ p.channels = 1 ∨ p.channels = 2 →
      ∃ (v : Int) (p' : zz_audio_SamplePlayer α) (out : Buf α),
        zz_audio_SamplePlayer_cb p stream len = .ret v (p', out)) := by
  obtain ⟨h0, h1⟩ := clampPos_range p hf
  obtain ⟨-, hfr, hch, hpl, -⟩ := clampPos_fields p
  by_cases hplay : p.playing = 0
  · rw [cb_paused p stream len hplay]
    refine ⟨?_, fun _ => ⟨_, _, _, rfl⟩⟩
    intro v p' out hret
    cases hret
    exact ⟨h0, by rw [hfr]; exact h1, hfr⟩
  · by_cases hend : (clampPos p).pos = p.frames
    · rw [cb_at_end p stream len hplay hend]
      refine ⟨?_, fun _ => ⟨_, _, _, rfl⟩⟩
      intro v p' out hret
      cases hret
      exact ⟨hf, le_refl _, rfl⟩
    · have hlt : (clampPos p).pos < (clampPos p).frames := by rw [hfr]; omega
      rw [cb_clamped p stream len hf,
        cb_playing (clampPos p) stream len (by rw [hpl]; exact hplay) h0 hlt hlen0 hlen]
      by_cases hc : (clampPos p).channels = 1 ∨ (clampPos p).channels = 2
      · obtain ⟨out, hout, -⟩ :=
          playBlock_eq_src (clampPos p) stream (len / 8) hlt hc (by omega) (by omega)
        rw [hout]
        refine ⟨?_, fun _ => ⟨_, _, _, rfl⟩⟩
        intro v p' out' hret
        cases hret
        simp only
        omega
      · rw [playBlock_unsupported (clampPos p) stream (len / 8) (fun h => hc (Or.inl h))
          (fun h => hc (Or.inr h))]
        refine ⟨?_, ?_⟩
        · intro v p' out hret
          cases hret
        · intro h
          rw [hch] at hc
          rcases h with h | h
          · exact absurd h hplay
          · exact absurd h hc

theorem cursor_within_frames_after_call_witness :
    (0 ≤ (stereoTen 25).frames ∧ (0 : Int) ≤ 48 ∧ (48 : Int) < 2 ^ 31) ∧
      ((∀ (v : Int) (p' : zz_audio_SamplePlayer Int) (out : Buf Int),
        zz_audio_SamplePlayer_cb (stereoTen 25) staleStream 48 = .ret v (p', out) →
          0 ≤ p'.pos ∧ p'.pos ≤ p'.frames ∧ p'.frames = (stereoTen 25).frames) ∧
      ((stereoTen 25).playing = 0 ∨ (stereoTen 25).channels = 1 ∨ (stereoTen 25).channels = 2 →
        ∃ (v : Int) (p' : zz_audio_SamplePlayer Int) (out : Buf Int),
          zz_audio_SamplePlayer_cb (stereoTen 25) staleStream 48 = .ret v (p', out))) :=
  ⟨⟨by decide, by decide, by norm_num⟩,
    cursor_within_frames_after_call (stereoTen 25) staleStream 48 (by decide) (by decide)
      (by norm_num)⟩

/-! ## Runs of calls -/

/-- One call on a supported player that is either still playing inside its data or at its end. -/
theorem cb_step {α : Type} [Zero α] [ZeroFill α] (p : zz_audio_SamplePlayer α)
    (stream : Buf α) (len : Int) (hch : p.channels = 1 ∨ p.channels = 2)
    (hpos0 : 0 ≤ p.pos) (hpos : p.pos ≤ p.frames) (hplay : p.pos < p.frames → p.playing ≠ 0)
    (hlen0 : 0 ≤ len) (hlen : len < 2 ^ 31) :
    ∃ (p' : zz_audio_SamplePlayer α) (out : Buf α),
      zz_audio_SamplePlayer_cb p stream len = .ret (if p.pos < p.frames then 1 else 0) (p', out) ∧
      p'.buf = p.buf ∧ p'.frames = p.frames ∧ p'.channels = p.channels ∧
      p'.pos = min p.frames (p.pos + len / 8) ∧
      (p'.pos < p'.frames → p'.playing ≠ 0) ∧ (p.pos < p.frames → p'.playing = p.playing) ∧
      p'.end_signal.fired = p.end_signal.fired +
        (if p.pos ≠ p.frames ∧ p'.pos = p'.frames then 1 else 0) := by
  by_cases hlt : p.pos < p.frames
  · obtain ⟨out, hout, -⟩ := playBlock_eq_src p stream (len / 8) hlt hch (by omega) (by omega)
    rw [cb_playing p stream len (hplay hlt) hpos0 hlt hlen0 hlen, hout, if_pos hlt]
    refine ⟨_, out, rfl, rfl, rfl, rfl, ?_, ?_, fun _ => rfl, ?_⟩
    · simp only
      omega
    · intro _
      exact hplay hlt
    · simp only
      by_cases hge : p.pos + min (p.frames - p.pos) (len / 8) ≥ p.frames
      · rw [if_pos hge, if_pos ⟨by omega, by omega⟩]
        rfl
      · rw [if_neg hge, if_neg (by omega)]
        rfl
  · have heq : p.pos = p.frames := by omega
    rw [if_neg hlt]
    by_cases hpl : p.playing = 0
    · rw [cb_paused p stream len hpl, clampPos_of_range p hpos0 hpos]
      refine ⟨_, stream, rfl, rfl, rfl, rfl, by omega, fun h => absurd h hlt,
        fun h => absurd h hlt, ?_⟩
      rw [if_neg (by omega)]
      rfl
    · rw [cb_at_end p stream len hpl (by rw [clampPos_of_range p hpos0 hpos]; exact heq)]
      refine ⟨_, stream, rfl, rfl, rfl, rfl, ?_, ?_, fun h => absurd h hlt, ?_⟩
      · simp only
        omega
      · intro h
        simp only at h
        omega
      · simp only
        rw [if_neg (by omega)]
        rfl
theorem run_inv {α : Type} [Zero α] [ZeroFill α] (cs : List (Buf α × Int))
    (hlens : ∀ c ∈ cs, 0 ≤ c.2 ∧ c.2 < 2 ^ 31) (p : zz_audio_SamplePlayer α)
    (hch : p.channels = 1 ∨ p.channels = 2)
    (hpos0 : 0 ≤ p.pos) (hpos : p.pos ≤ p.frames) (hplay : p.pos < p.frames → p.playing ≠ 0) :
    ∃ tr : List (Int × zz_audio_SamplePlayer α × Buf α),
      runCalls p cs = some tr ∧ tr.length = cs.length ∧
      List.Chain (fun a b : zz_audio_SamplePlayer α =>
          (a.pos = a.frames → b.pos = b.frames) ∧
          b.end_signal.fired = a.end_signal.fired +
            (if a.pos ≠ a.frames ∧ b.pos = b.frames then 1 else 0))
        p (tr.map (fun r => r.2.1)) ∧
      ((tr.map (fun r => r.2.1)).getLastD p).frames = p.frames ∧
      ((tr.map (fun r => r.2.1)).getLastD p).pos =
        min p.frames (p.pos + (cs.map (fun c => c.2 / 8)).sum) ∧
      ((tr.map (fun r => r.2.1)).getLastD p).end_signal.fired = p.end_signal.fired +
        (if p.pos ≠ p.frames ∧ ((tr.map (fun r => r.2.1)).getLastD p).pos = p.frames
          then 1 else 0) := by
  induction cs generalizing p with
  | nil =>
    refine ⟨[], rfl, rfl, List.Chain.nil, rfl, ?_, ?_⟩
    · simp only [List.map_nil, List.getLastD_nil, List.sum_nil, add_zero]
      omega
    · simp only [List.map_nil, List.getLastD_nil]
      split <;> omega
  | cons c rest ih =>
    obtain ⟨stream, len⟩ := c
    have hl := hlens (stream, len) (List.mem_cons_self _ _)
    obtain ⟨p', out, hcb, hb, hf, hc, hp, hpl, -, hfire⟩ :=
      cb_step p stream len hch hpos0 hpos hplay hl.1 hl.2
    have hq : 0 ≤ len / 8 := by have := hl.1; omega
    obtain ⟨tr, hrun, hlen, hchain, hff, hfp, hfs⟩ :=
      ih (fun c hc => hlens c (List.mem_cons_of_mem _ hc)) p' (by rw [hc]; exact hch)
        (by rw [hp]; omega) (by rw [hp, hf]; omega) hpl
    refine ⟨((if p.pos < p.frames then 1 else 0), p', out) :: tr, ?_, ?_, ?_, ?_, ?_, ?_⟩
    · simp only [runCalls, hcb, hrun, Option.map_some']
    · simp [hlen]
    · simp only [List.map_cons]
      refine List.Chain.cons ⟨?_, hfire⟩ hchain
      intro h
      rw [hp, hf]
      omega
    · simp only [List.map_cons, List.getLastD_cons]
      rw [hff, hf]
    · simp only [List.map_cons, List.getLastD_cons, List.sum_cons]
      rw [hfp, hf, hp]
      have hs : 0 ≤ (rest.map (fun c => c.2 / 8)).sum := by
        apply List.sum_nonneg
        intro x hx
        simp only [List.mem_map] at hx
        obtain ⟨c, hc, rfl⟩ := hx
        have := (hlens c (List.mem_cons_of_mem _ hc)).1
        omega
      omega
    · simp only [List.map_cons, List.getLastD_cons]
      rw [hfs, hfire, hfp, hf, hp]
      have hs : 0 ≤ (rest.map (fun c => c.2 / 8)).sum := by
        apply List.sum_nonneg
        intro x hx
        simp only [List.mem_map] at hx
        obtain ⟨c, hc, rfl⟩ := hx
        have := (hlens c (List.mem_cons_of_mem _ hc)).1
        omega
      generalize (rest.map (fun c => c.2 / 8)).sum = S at hs ⊢
      split_ifs <;> omega
/-- The scenario of the specification: a playing 10-frame player at the start, asked for two
blocks of 6 frames (48 bytes each). -/
theorem two_blocks_of_six {α : Type} [Zero α] [ZeroFill α] (p : zz_audio_SamplePlayer α)
    (hch : p.channels = 1 ∨ p.channels = 2) (hplay : p.playing ≠ 0)
    (hf : p.frames = 10) (hp : p.pos = 0) (s1 s2 : Buf α) :
    ∃ (p1 p2 : zz_audio_SamplePlayer α) (o1 o2 : Buf α),
      zz_audio_SamplePlayer_cb p s1 48 = .ret 1 (p1, o1) ∧
      zz_audio_SamplePlayer_cb p1 s2 48 = .ret 1 (p2, o2) ∧
      p1.pos = 6 ∧ p2.pos = 10 ∧ p1.end_signal.fired = p.end_signal.fired ∧
      p2.end_signal.fired = p.end_signal.fired + 1 ∧ p2.frames = 10 ∧ p2.playing ≠ 0 := by
  obtain ⟨p1, o1, hcb1, -, hf1, hc1, hp1, hpl1, hk1, hfire1⟩ :=
    cb_step p s1 48 hch (by omega) (by omega) (fun _ => hplay) (by decide) (by norm_num)
  have hp1' : p1.pos = 6 := by rw [hp1, hf, hp]; decide
  obtain ⟨p2, o2, hcb2, -, hf2, -, hp2, -, hk2, hfire2⟩ :=
    cb_step p1 s2 48 (by rw [hc1]; exact hch) (by omega) (by omega) hpl1 (by decide)
      (by norm_num)
  have hp2' : p2.pos = 10 := by rw [hp2, hf1, hf, hp1']; decide
  rw [if_pos (by omega)] at hcb1 hcb2
  refine ⟨p1, p2, o1, o2, hcb1, hcb2, hp1', hp2', ?_, ?_, by rw [hf2, hf1, hf], ?_⟩
  · rw [hfire1, if_neg (by omega)]
    rfl
  · rw [hfire2, if_pos ⟨by omega, by omega⟩, hfire1, if_neg (by omega)]
  · rw [hk2 (by omega), hk1 (by omega)]
    exact hplay

/-- C5: over any run of calls (non-negative block lengths, no control operation in between) on a
supported player that starts playing inside its data, every call returns, the end signal is
fired at most once in total, a call fires it exactly when the cursor equals `frames` after the
call and did not before (and the cursor then stays at `frames`), and it is fired exactly once as
soon as the requested frames add up to `frames - pos`; a 10-frame player asked for two blocks of
6 frames fires once, in the second call. -/
theorem end_signal_fires_once_per_playthrough {α : Type} [Zero α] [ZeroFill α]
    (p : zz_audio_SamplePlayer α) (cs : List (Buf α × Int))
    (hch : p.channels = 1 ∨ p.channels = 2) (hplay : p.playing ≠ 0)
    (hpos0 : 0 ≤ p.pos) (hpos : p.pos < p.frames)
    (hlens : ∀ c ∈ cs, 0 ≤ c.2 ∧ c.2 < 2 ^ 31) :
    (∃ tr : List (Int × zz_audio_SamplePlayer α × Buf α),
      runCalls p cs = some tr ∧ tr.length = cs.length ∧
      ((tr.map (fun r => r.2.1)).getLastD p).end_signal.fired ≤ p.end_signal.fired + 1 ∧
      List.Chain (fun a b : zz_audio_SamplePlayer α =>
          (a.pos = a.frames → b.pos = b.frames) ∧
          b.end_signal.fired = a.end_signal.fired +
            (if a.pos ≠ a.frames ∧ b.pos = b.frames then 1 else 0))
        p (tr.map (fun r => r.2.1)) ∧
      (p.frames - p.pos ≤ (cs.map (fun c => c.2 / 8)).sum →
        ((tr.map (fun r => r.2.1)).getLastD p).end_signal.fired = p.end_signal.fired + 1)) ∧
    (p.frames = 10 → p.pos = 0 → ∀ s1 s2 : Buf α,
      ∃ (p1 p2 : zz_audio_SamplePlayer α) (o1 o2 : Buf α),
        runCalls p [(s1, 48), (s2, 48)] = some [(1, p1, o1), (1, p2, o2)] ∧
        p1.end_signal.fired = p.end_signal.fired ∧
        p2.end_signal.fired = p.end_signal.fired + 1) := by
  constructor
  · obtain ⟨tr, hrun, hlen, hchain, -, hfp, hfs⟩ :=
      run_inv cs hlens p hch hpos0 (by omega) (fun _ => hplay)
    refine ⟨tr, hrun, hlen, ?_, hchain, ?_⟩
    · rw [hfs]
      split <;> omega
    · intro hsum
      rw [hfs, if_pos ⟨by omega, by rw [hfp]; omega⟩]
  · intro hf hp s1 s2
    obtain ⟨p1, p2, o1, o2, h1, h1', -, -, h2, h3, -, -⟩ :=
      two_blocks_of_six p hch hplay hf hp s1 s2
    exact ⟨p1, p2, o1, o2, by simp only [runCalls, h1, h1', Option.map_some'], h2, h3⟩

theorem end_signal_fires_once_per_playthrough_witness :
    (((stereoTen 0).channels = 1 ∨ (stereoTen 0).channels = 2) ∧ (stereoTen 0).playing ≠ 0 ∧
        0 ≤ (stereoTen 0).pos ∧ (stereoTen 0).pos < (stereoTen 0).frames ∧
        ∀ c ∈ [(staleStream, (48 : Int)), (staleStream, 48), (staleStream, 48)],
          0 ≤ c.2 ∧ c.2 < 2 ^ 31) ∧
      ∃ (p1 p2 : zz_audio_SamplePlayer Int) (o1 o2 : Buf Int),
        runCalls (stereoTen 0) [(staleStream, 48), (staleStream, 48)] =
          some [(1, p1, o1), (1, p2, o2)] ∧
        p1.end_signal.fired = (stereoTen 0).end_signal.fired ∧
        p2.end_signal.fired = (stereoTen 0).end_signal.fired + 1 := by
  have hl : ∀ c ∈ [(staleStream, (48 : Int)), (staleStream, 48), (staleStream, 48)],
      0 ≤ c.2 ∧ c.2 < 2 ^ 31 := by
    intro c hc
    simp only [List.mem_cons, List.mem_singleton, List.not_mem_nil, or_false, or_self] at hc
    rw [hc]
    exact ⟨by decide, by norm_num⟩
  exact ⟨⟨Or.inr rfl, by decide, by decide, by decide, hl⟩,
    (end_signal_fires_once_per_playthrough (stereoTen 0)
      [(staleStream, 48), (staleStream, 48), (staleStream, 48)] (Or.inr rfl) (by decide)
      (by decide) (by decide) hl).2 rfl rfl staleStream staleStream⟩

/-- C6: a call on a supported player that is playing inside its data returns filled, moves the
cursor to `pos + min(frames - pos, len / 8) = min(frames, pos + len / 8)` and leaves `playing`
set; a 10-frame player asked for two blocks of 6 frames ends the first call at `pos = 6` and the
second at `pos = 10`, both filled. -/
theorem cursor_advances_by_copy_count {α : Type} [Zero α] [ZeroFill α]
    (p : zz_audio_SamplePlayer α) (stream : Buf α) (len : Int)
    (hch : p.channels = 1 ∨ p.channels = 2) (hplay : p.playing ≠ 0)
    (hpos0 : 0 ≤ p.pos) (hpos : p.pos < p.frames) (hlen0 : 0 ≤ len) (hlen : len < 2 ^ 31) :
    (∃ (p' : zz_audio_SamplePlayer α) (out : Buf α),
      zz_audio_SamplePlayer_cb p stream len = .ret 1 (p', out) ∧
      p'.pos = p.pos + min (p.frames - p.pos) (len / 8) ∧
      p'.pos = min p.frames (p.pos + len / 8) ∧
      p'.playing = p.playing ∧ p'.playing ≠ 0) ∧
    (p.frames = 10 → p.pos = 0 → ∀ s1 s2 : Buf α,
      ∃ (p1 p2 : zz_audio_SamplePlayer α) (o1 o2 : Buf α),
        runCalls p [(s1, 48), (s2, 48)] = some [(1, p1, o1), (1, p2, o2)] ∧
        p1.pos = 6 ∧ p2.pos = 10) := by
  constructor
  · obtain ⟨out, hout, -⟩ := playBlock_eq_src p stream (len / 8) hpos hch (by omega) (by omega)
    rw [cb_playing p stream len hplay hpos0 hpos hlen0 hlen, hout]
    refine ⟨_, out, rfl, rfl, ?_, rfl, hplay⟩
    simp only
    omega
  · intro hf hp s1 s2
    obtain ⟨p1, p2, o1, o2, h1, h1', h2, h3, -, -, -, -⟩ :=
      two_blocks_of_six p hch hplay hf hp s1 s2
    exact ⟨p1, p2, o1, o2, by simp only [runCalls, h1, h1', Option.map_some'], h2, h3⟩

theorem cursor_advances_by_copy_count_witness :
    (((stereoTen 6).channels = 1 ∨ (stereoTen 6).channels = 2) ∧ (stereoTen 6).playing ≠ 0 ∧
        0 ≤ (stereoTen 6).pos ∧ (stereoTen 6).pos < (stereoTen 6).frames ∧
        (0 : Int) ≤ 48 ∧ (48 : Int) < 2 ^ 31) ∧
      ∃ (p' : zz_audio_SamplePlayer Int) (out : Buf Int),
        zz_audio_SamplePlayer_cb (stereoTen 6) staleStream 48 = .ret 1 (p', out) ∧
        p'.pos = (stereoTen 6).pos + min ((stereoTen 6).frames - (stereoTen 6).pos) (48 / 8) ∧
        p'.pos = min (stereoTen 6).frames ((stereoTen 6).pos + 48 / 8) ∧
        p'.playing = (stereoTen 6).playing ∧ p'.playing ≠ 0 :=
  ⟨⟨Or.inr rfl, by decide, by decide, by decide, by decide, by norm_num⟩,
    (cursor_advances_by_copy_count (stereoTen 6) staleStream 48 (Or.inr rfl) (by decide)
      (by decide) (by decide) (by decide) (by norm_num)).1⟩
theorem clampPos_pos_eq_min_max {α : Type} (p : zz_audio_SamplePlayer α) :
    (clampPos p).pos = min (max p.pos 0) p.frames := by
  rw [clampPos_pos]
  split <;> split <;> omega

/-- C7: a player with `playing != 0` whose cursor clamped into `[0, frames]` equals `frames` is
paused by the call, whatever `len` is: the call returns not filled, the stream is untouched,
no end signal is fired, and `pos` is `frames`; this is what the third 6-frame call on a playing
10-frame player does. -/
theorem auto_pause_at_end {α : Type} [Zero α] [ZeroFill α]
    (p : zz_audio_SamplePlayer α) (stream : Buf α) (len : Int)
    (hplay : p.playing ≠ 0) (hend : min (max p.pos 0) p.frames = p.frames) :
    zz_audio_SamplePlayer_cb p stream len =
        .ret 0 ({ p with pos := p.frames, playing := 0 }, stream) ∧
    (p.channels = 1 ∨ p.channels = 2 → p.frames = 10 → p.pos = 0 → ∀ s1 s2 s3 : Buf α,
      ∃ (p1 p2 p3 : zz_audio_SamplePlayer α) (o1 o2 : Buf α),
        runCalls p [(s1, 48), (s2, 48), (s3, 48)] =
          some [(1, p1, o1), (1, p2, o2), (0, p3, s3)] ∧
        p2.playing ≠ 0 ∧ p3.playing = 0 ∧ p3.pos = 10 ∧
        p3.end_signal.fired = p2.end_signal.fired) := by
  refine ⟨cb_at_end p stream len hplay (by rw [clampPos_pos_eq_min_max]; exact hend), ?_⟩
  intro hch hf hp s1 s2 s3
  obtain ⟨p1, p2, o1, o2, h1, h2, -, hp2, -, -, hf2, hpl2⟩ :=
    two_blocks_of_six p hch hplay hf hp s1 s2
  have h3 := cb_at_end p2 s3 48 hpl2 (by rw [clampPos_pos_eq_min_max, hp2, hf2]; decide)
  refine ⟨p1, p2, { p2 with pos := p2.frames, playing := 0 }, o1, o2, ?_, hpl2, rfl, hf2, rfl⟩
  simp only [runCalls, h1, h2, h3, Option.map_some']

theorem auto_pause_at_end_witness :
    ((stereoTen 12).playing ≠ 0 ∧
        min (max (stereoTen 12).pos 0) (stereoTen 12).frames = (stereoTen 12).frames) ∧
      zz_audio_SamplePlayer_cb (stereoTen 12) staleStream (-3) =
        .ret 0 ({ stereoTen 12 with pos := (stereoTen 12).frames, playing := 0 }, staleStream) :=
  ⟨⟨by decide, by decide⟩,
    (auto_pause_at_end (stereoTen 12) staleStream (-3) (by decide) (by decide)).1⟩

/-- C8: a paused player with `0 <= pos <= frames` (any channel count, any `len`) returns not
filled and changes nothing: the stream, `pos`, `playing` and the end signal are as before. -/
theorem paused_player_is_inert {α : Type} [Zero α] [ZeroFill α]
    (p : zz_audio_SamplePlayer α) (stream : Buf α) (len : Int)
    (hplay : p.playing = 0) (hpos0 : 0 ≤ p.pos) (hpos : p.pos ≤ p.frames) :
    zz_audio_SamplePlayer_cb p stream len = .ret 0 (p, stream) := by
  rw [cb_paused p stream len hplay, clampPos_of_range p hpos0 hpos]

theorem paused_player_is_inert_witness :
    (({ stereoTen 4 with playing := 0, channels := 5 } : zz_audio_SamplePlayer Int).playing = 0 ∧
        0 ≤ ({ stereoTen 4 with playing := 0, channels := 5 } : zz_audio_SamplePlayer Int).pos ∧
        ({ stereoTen 4 with playing := 0, channels := 5 } : zz_audio_SamplePlayer Int).pos ≤
          ({ stereoTen 4 with playing := 0, channels := 5 } : zz_audio_SamplePlayer Int).frames) ∧
      zz_audio_SamplePlayer_cb { stereoTen 4 with playing := 0, channels := 5 } staleStream 48 =
        .ret 0 ({ stereoTen 4 with playing := 0, channels := 5 }, staleStream) :=
  ⟨⟨rfl, by decide, by decide⟩,
    paused_player_is_inert { stereoTen 4 with playing := 0, channels := 5 } staleStream 48 rfl
      (by decide) (by decide)⟩

/-- C9: on a mixer whose channel list is empty, `zz_audio_Mixer_cb` returns not filled for every
stream and `len` and leaves the whole state as it was: the stream is unmodified, the trace gains
no lock step, and the scratch buffer `mixer->buf` is untouched. -/
theorem empty_mixer_not_filled {U W α : Type} [Zero α] [Add α] [ZeroFill α]
    (st : MixerState U W α) (len : Int) (hempty : st.mixer.channels = []) :
    zz_audio_Mixer_cb st len = .ret 0 st ∧
    ∀ (v : Int) (st' : MixerState U W α), zz_audio_Mixer_cb st len = .ret v st' →
      v = 0 ∧ st'.stream = st.stream ∧ st'.trace = st.trace ∧ st'.mixer.buf = st.mixer.buf := by
  have h := mixer_cb_empty st len hempty
  refine ⟨h, ?_⟩
  intro v st' hret
  rw [h] at hret
  cases hret
  exact ⟨rfl, rfl, rfl, rfl⟩

theorem empty_mixer_not_filled_witness :
    (mixerOf []).mixer.channels = [] ∧
      zz_audio_Mixer_cb (mixerOf []) 64 = .ret 0 (mixerOf []) :=
  ⟨rfl, (empty_mixer_not_filled (mixerOf []) 64 rfl).1⟩

/-- C10: for a block length `L` that is a non-negative multiple of 8, a non-empty mixer whose
lock operations succeed and whose callbacks all return reports filled; each of the `L / 4`
samples (the `L` bytes) of the output is overwritten with the mix, so that the block does not
depend on what the stream held before, nothing outside the block is changed, and when every
channel reports not filled the block is all zeros. -/
theorem nonempty_mixer_fills_whole_block {U W α : Type} [Zero α] [Add α] [ZeroFill α]
    (st : MixerState U W α) (L : Int) (hne : st.mixer.channels ≠ [])
    (hL0 : 0 ≤ L) (hL : L < 2 ^ 31) (h8 : 8 ∣ L)
    (hlock : st.mixer.mutex.lockStatus = 0) (hunlock : st.mixer.mutex.unlockStatus = 0)
    (outs : List (Int × Buf α))
    (hret : channelOutputs L st.mixer.channels st.world st.mixer.buf = some outs) :
    ∃ st' : MixerState U W α, zz_audio_Mixer_cb st L = .ret 1 st' ∧
      (∀ i : Int, 0 ≤ i → i < L / 4 → st'.stream i = mixedSample 0 outs i) ∧
      (∀ i : Int, ¬ (0 ≤ i ∧ i < L / 4) → st'.stream i = st.stream i) ∧
      (∀ s2 : Buf α, ∃ st2 : MixerState U W α,
        zz_audio_Mixer_cb { st with stream := s2 } L = .ret 1 st2 ∧
        ∀ i : Int, 0 ≤ i → i < L / 4 → st2.stream i = st'.stream i) ∧
      ((∀ o ∈ outs, o.1 = 0) → ∀ i : Int, 0 ≤ i → i < L / 4 → st'.stream i = 0) := by
  obtain ⟨hn, hs⟩ := samples_of_len L hL0 hL
  have key : ∀ s : Buf α, ∃ st1 : MixerState U W α,
      zz_audio_Mixer_cb { st with stream := s } L = .ret 1 st1 ∧
      (∀ i : Int, 0 ≤ i → i < L / 4 → st1.stream i = mixedSample 0 outs i) ∧
      (∀ i : Int, ¬ (0 ≤ i ∧ i < L / 4) → st1.stream i = s i) := by
    intro s
    obtain ⟨st1, -, -, -, h4, h5⟩ :=
      mixer_cb_through { st with stream := s } L hne hlock outs hret
    rw [if_neg (by simpa using hunlock)] at h5
    refine ⟨st1, h5, ?_, ?_⟩
    · intro i hi0 hi1
      rw [h4 i, hn, hs, if_pos ⟨hi0, hi1⟩, memset_zero_apply _ _ _ hi0 hi1]
    · intro i hi
      rw [h4 i, hn, hs, if_neg hi]
      unfold memset sizeofFloat
      rw [if_neg (by omega), if_neg (by omega)]
  obtain ⟨st', h1, h2, h3⟩ := key st.stream
  refine ⟨st', h1, h2, h3, ?_, ?_⟩
  · intro s2
    obtain ⟨st2, g1, g2, -⟩ := key s2
    refine ⟨st2, g1, ?_⟩
    intro i hi0 hi1
    rw [g2 i hi0 hi1, h2 i hi0 hi1]
  · intro hall i hi0 hi1
    rw [h2 i hi0 hi1]
    unfold mixedSample
    rw [List.filter_eq_nil_iff.mpr (by
      intro o ho
      simp [hall o ho])]
    rfl

theorem nonempty_mixer_fills_whole_block_witness :
    ((mixerOf [silentChannel, silentChannel]).mixer.channels ≠ [] ∧ (0 : Int) ≤ 16 ∧
        (16 : Int) < 2 ^ 31 ∧ (8 : Int) ∣ 16 ∧
        (mixerOf [silentChannel, silentChannel]).mixer.mutex.lockStatus = 0 ∧
        (mixerOf [silentChannel, silentChannel]).mixer.mutex.unlockStatus = 0 ∧
        channelOutputs 16 (mixerOf [silentChannel, silentChannel]).mixer.channels
          (mixerOf [silentChannel, silentChannel]).world
          (mixerOf [silentChannel, silentChannel]).mixer.buf =
            some [(0, fun _ => 9), (0, fun _ => 9)]) ∧
      ∃ st' : MixerState Unit Unit Int,
        zz_audio_Mixer_cb (mixerOf [silentChannel, silentChannel]) 16 = .ret 1 st' ∧
        ∀ i : Int, 0 ≤ i → i < 16 / 4 → st'.stream i = 0 := by
  have hne : (mixerOf [silentChannel, silentChannel]).mixer.channels ≠ [] := by
    simp [mixerOf]
  obtain ⟨st', h1, -, -, -, h5⟩ :=
    nonempty_mixer_fills_whole_block (mixerOf [silentChannel, silentChannel]) 16 hne
      (by decide) (by norm_num) (by decide) rfl rfl [(0, fun _ => 9), (0, fun _ => 9)] rfl
  exact ⟨⟨hne, by decide, by norm_num, by decide, rfl, rfl, rfl⟩, st', h1,
    h5 (by simp)⟩

/-! ## Device -/

theorem toSizeT_of_len (len : Int) (h0 : 0 ≤ len) (h1 : len < 2 ^ 31) : toSizeT len = len := by
  unfold toSizeT
  omega

/-- The stream after `memset(stream, 0, len)` for `0 <= len`: the `len / 4` whole samples are
zero, a last sample covered in part has its first `len % 4` bytes zeroed, the rest is as it was. -/
theorem memset_len_apply {α : Type} [Zero α] [ZeroFill α] (b : Buf α) (len : Int)
    (h0 : 0 ≤ len) :
    (∀ i : Int, 0 ≤ i → i < len / 4 → memset b 0 len i = 0) ∧
    (len % 4 ≠ 0 → memset b 0 len (len / 4) = ZeroFill.zeroBytes (len % 4).toNat (b (len / 4))) ∧
    (∀ i : Int, i < 0 ∨ len / 4 < i ∨ (i = len / 4 ∧ len % 4 = 0) → memset b 0 len i = b i) := by
  refine ⟨?_, ?_, ?_⟩
  · intro i hi0 hi1
    unfold memset sizeofFloat
    rw [if_pos (by omega)]
  · intro hr
    unfold memset sizeofFloat
    rw [if_neg (by omega), if_pos ⟨by omega, hr⟩]
  · intro i hi
    unfold memset sizeofFloat
    rw [if_neg (by omega), if_neg (by omega)]

theorem device_cb_of_ret {U W α : Type} [Zero α] [ZeroFill α] (dev : zz_audio_Device U W α)
    (w : W) (stream : Buf α) (len : Int) (filled : Int) (w' : W) (b' : Buf α)
    (h : dev.callback dev.userdata w stream len = .ret filled (w', b')) :
    zz_audio_Device_cb dev w stream len =
      if filled = 0 then .ret () (w', memset b' 0 (toSizeT len)) else .ret () (w', b') := by
  unfold zz_audio_Device_cb
  rw [h]

/-- C11: `zz_audio_Device_cb` calls the wrapped callback exactly once, with
`(userdata, stream, len)`: a callback that records its calls has gained exactly that one entry
when the device call ends. For `0 <= len`, when the callback returns not filled the `len` bytes
of the stream are zero on return (the `len / 4` whole samples are `0`, a last sample covered in
part has its first `len % 4` bytes zeroed) and the rest is as the callback left it; when it
returns filled the stream is exactly as the callback left it. -/
theorem device_zero_fills_unfilled_stream {U W α : Type} [Zero α] [ZeroFill α]
    (dev : zz_audio_Device U W α) (w : W) (stream : Buf α) (len : Int)
    (hlen0 : 0 ≤ len) (hlen : len < 2 ^ 31) :
    (∀ log : List (U × Buf α × Int),
      (zz_audio_Device_cb (recordingDevice dev) (w, log) stream len).finalState.1.2 =
        log ++ [(dev.userdata, stream, len)]) ∧
    (∀ (filled : Int) (w' : W) (b' : Buf α),
      dev.callback dev.userdata w stream len = .ret filled (w', b') →
      (filled = 0 → ∃ out : Buf α, zz_audio_Device_cb dev w stream len = .ret () (w', out) ∧
        (∀ i : Int, 0 ≤ i → i < len / 4 → out i = 0) ∧
        (len % 4 ≠ 0 → out (len / 4) = ZeroFill.zeroBytes (len % 4).toNat (b' (len / 4))) ∧
        (∀ i : Int, i < 0 ∨ len / 4 < i ∨ (i = len / 4 ∧ len % 4 = 0) → out i = b' i)) ∧
      (filled ≠ 0 → zz_audio_Device_cb dev w stream len = .ret () (w', b'))) := by
  constructor
  · intro log
    unfold zz_audio_Device_cb recordingDevice recorded
    simp only
    rcases dev.callback dev.userdata w stream len with ⟨v, w', b'⟩ | ⟨c, m, w', b'⟩
    · simp only
      split <;> rfl
    · rfl
  · intro filled w' b' h
    rw [device_cb_of_ret dev w stream len filled w' b' h, toSizeT_of_len len hlen0 hlen]
    constructor
    · intro hf
      rw [if_pos hf]
      exact ⟨_, rfl, memset_len_apply b' len hlen0⟩
    · intro hf
      rw [if_neg hf]

theorem device_zero_fills_unfilled_stream_witness :
    ((0 : Int) ≤ 6 ∧ (6 : Int) < 2 ^ 31) ∧
      (zz_audio_Device_cb (recordingDevice silentDevice) ((), []) staleStream 6).finalState.1.2 =
        [((), staleStream, 6)] ∧
      ∃ out : Buf Int, zz_audio_Device_cb silentDevice () staleStream 6 = .ret () ((), out) ∧
        (∀ i : Int, 0 ≤ i → i < 6 / 4 → out i = 0) ∧
        ((6 : Int) % 4 ≠ 0 →
          out (6 / 4) = ZeroFill.zeroBytes ((6 : Int) % 4).toNat (staleStream (6 / 4))) ∧
        (∀ i : Int, i < 0 ∨ 6 / 4 < i ∨ (i = 6 / 4 ∧ (6 : Int) % 4 = 0) → out i = staleStream i) :=
  ⟨⟨by decide, by norm_num⟩,
    (device_zero_fills_unfilled_stream silentDevice () staleStream 6 (by decide)
      (by norm_num)).1 [],
    ((device_zero_fills_unfilled_stream silentDevice () staleStream 6 (by decide)
      (by norm_num)).2 0 () staleStream rfl).1 rfl⟩

/-- C12, as stated, fails: a callback that reports filled without writing makes
`zz_audio_Device_cb` write nothing, so the 16-byte block keeps its content from before the call,
whatever that content was. -/
theorem device_keeps_stale_block_when_filled :
    (∀ s : Buf Int, idleFilledDevice.callback idleFilledDevice.userdata () s 16 = .ret 1 ((), s)) ∧
    zz_audio_Device_cb idleFilledDevice () staleStream 16 = .ret () ((), staleStream) ∧
    zz_audio_Device_cb idleFilledDevice () (fun _ => 8) 16 = .ret () ((), fun _ => 8) ∧
    ∃ i : Int, 0 ≤ i ∧ i < 16 / 4 ∧ staleStream i ≠ (fun _ => 8 : Buf Int) i :=
  ⟨fun _ => rfl, rfl, rfl, 0, by decide, by decide, by decide⟩

/-- C12, amended: for `0 <= len`, when the wrapped callback returns not filled the device
overwrites the whole block, so that the `len / 4` samples are zero whatever the stream held
before the call and whatever the callback wrote, and nothing outside the `len` bytes is changed;
when the callback returns filled the device writes nothing and the stream is what the callback
left. -/
theorem device_overwrites_block_unless_filled {U W α : Type} [Zero α] [ZeroFill α]
    (dev : zz_audio_Device U W α) (w : W) (s1 s2 : Buf α) (len : Int)
    (hlen0 : 0 ≤ len) (hlen : len < 2 ^ 31)
    (f1 f2 : Int) (w1 w2 : W) (b1 b2 : Buf α)
    (h1 : dev.callback dev.userdata w s1 len = .ret f1 (w1, b1))
    (h2 : dev.callback dev.userdata w s2 len = .ret f2 (w2, b2)) :
    ∃ o1 o2 : Buf α,
      zz_audio_Device_cb dev w s1 len = .ret () (w1, o1) ∧
      zz_audio_Device_cb dev w s2 len = .ret () (w2, o2) ∧
      (f1 = 0 → f2 = 0 → ∀ i : Int, 0 ≤ i → i < len / 4 → o1 i = o2 i) ∧
      (f1 = 0 → (∀ i : Int, 0 ≤ i → i < len / 4 → o1 i = 0) ∧
        ∀ i : Int, i < 0 ∨ len / 4 < i ∨ (i = len / 4 ∧ len % 4 = 0) → o1 i = b1 i) ∧
      (f1 ≠ 0 → o1 = b1) := by
  have hs := toSizeT_of_len len hlen0 hlen
  rw [device_cb_of_ret dev w s1 len f1 w1 b1 h1, device_cb_of_ret dev w s2 len f2 w2 b2 h2, hs]
  by_cases hf1 : f1 = 0
  · by_cases hf2 : f2 = 0
    · rw [if_pos hf1, if_pos hf2]
      refine ⟨_, _, rfl, rfl, ?_, ?_, fun h => absurd hf1 h⟩
      · intro _ _ i hi0 hi1
        rw [(memset_len_apply b1 len hlen0).1 i hi0 hi1,
          (memset_len_apply b2 len hlen0).1 i hi0 hi1]
      · intro _
        exact ⟨(memset_len_apply b1 len hlen0).1, (memset_len_apply b1 len hlen0).2.2⟩
    · rw [if_pos hf1, if_neg hf2]
      refine ⟨_, _, rfl, rfl, fun _ h => absurd h hf2, ?_, fun h => absurd hf1 h⟩
      intro _
      exact ⟨(memset_len_apply b1 len hlen0).1, (memset_len_apply b1 len hlen0).2.2⟩
  · by_cases hf2 : f2 = 0
    · rw [if_neg hf1, if_pos hf2]
      exact ⟨_, _, rfl, rfl, fun h => absurd h hf1, fun h => absurd h hf1, fun _ => rfl⟩
    · rw [if_neg hf1, if_neg hf2]
      exact ⟨_, _, rfl, rfl, fun h => absurd h hf1, fun h => absurd h hf1, fun _ => rfl⟩

theorem device_overwrites_block_unless_filled_witness :
    ((0 : Int) ≤ 16 ∧ (16 : Int) < 2 ^ 31 ∧
        silentDevice.callback silentDevice.userdata () staleStream 16 = .ret 0 ((), staleStream) ∧
        silentDevice.callback silentDevice.userdata () (fun _ => 8) 16 =
          .ret 0 ((), fun _ => 8)) ∧
      ∃ o1 o2 : Buf Int,
        zz_audio_Device_cb silentDevice () staleStream 16 = .ret () ((), o1) ∧
        zz_audio_Device_cb silentDevice () (fun _ => 8) 16 = .ret () ((), o2) ∧
        ((0 : Int) = 0 → (0 : Int) = 0 → ∀ i : Int, 0 ≤ i → i < 16 / 4 → o1 i = o2 i) ∧
        ((0 : Int) = 0 → (∀ i : Int, 0 ≤ i → i < 16 / 4 → o1 i = 0) ∧
          ∀ i : Int, i < 0 ∨ 16 / 4 < i ∨ (i = 16 / 4 ∧ (16 : Int) % 4 = 0) →
            o1 i = staleStream i) ∧
        ((0 : Int) ≠ 0 → o1 = staleStream) :=
  ⟨⟨by decide, by norm_num, rfl, rfl⟩,
    device_overwrites_block_unless_filled silentDevice () staleStream (fun _ => 8) 16
      (by decide) (by norm_num) 0 0 () () staleStream (fun _ => 8) rfl rfl⟩

/-! ## The player record across calls -/

theorem clampPos_signal {α : Type} (p : zz_audio_SamplePlayer α) (t : zz_trigger) :
    clampPos { p with end_signal := t } = { clampPos p with end_signal := t } := by
  unfold clampPos
  by_cases h : p.pos < 0
  · simp only [h, if_true]
    split <;> rfl
  · simp only [h, if_false]
    split <;> rfl

theorem autoPause_signal {α : Type} (p : zz_audio_SamplePlayer α) (t : zz_trigger) :
    autoPause { p with end_signal := t } = { autoPause p with end_signal := t } := by
  unfold autoPause
  simp only
  split <;> rfl

theorem playBlock_signal {α : Type} [Zero α] [ZeroFill α] (p : zz_audio_SamplePlayer α)
    (t : zz_trigger) (stream : Buf α) (q : Int) :
    (∀ (v : Int) (p' : zz_audio_SamplePlayer α) (out : Buf α),
      playBlock p stream q = .ret v (p', out) →
        p'.buf = p.buf ∧ p'.frames = p.frames ∧ p'.channels = p.channels ∧
        ∃ k : Nat, p'.end_signal.fired = p.end_signal.fired + k ∧
          playBlock { p with end_signal := t } stream q =
            .ret v ({ p' with end_signal := { fired := t.fired + k } }, out)) ∧
    (∀ (c : Int) (m : String) (p' : zz_audio_SamplePlayer α) (out : Buf α),
      playBlock p stream q = .exit c m (p', out) →
        playBlock { p with end_signal := t } stream q =
          .exit c m ({ p' with end_signal := t }, out)) := by
  have hcf : ∀ c s d, copyFrames { p with end_signal := t } stream c s d =
      copyFrames p stream c s d := fun _ _ _ => rfl
  unfold playBlock
  simp only [hcf]
  rcases copyFrames p stream (MIN (p.frames - p.pos) q) (intMul p.pos p.channels) 0 with
    _ | ⟨s', d', st'⟩
  · simp only
    constructor
    · intro v p' out h
      cases h
    · intro c m p' out h
      cases h
      rfl
  · simp only
    constructor
    · intro v p' out h
      by_cases hge : p.pos + MIN (p.frames - p.pos) q ≥ p.frames
      · rw [if_pos hge] at h
        cases h
        refine ⟨rfl, rfl, rfl, 1, rfl, ?_⟩
        rw [if_pos hge]
        rfl
      · rw [if_neg hge] at h
        cases h
        refine ⟨rfl, rfl, rfl, 0, rfl, ?_⟩
        rw [if_neg hge]
        rfl
    · intro c m p' out h
      cases h

theorem cb_signal {α : Type} [Zero α] [ZeroFill α] (p : zz_audio_SamplePlayer α)
    (t : zz_trigger) (stream : Buf α) (len : Int) :
    (∀ (v : Int) (p' : zz_audio_SamplePlayer α) (out : Buf α),
      zz_audio_SamplePlayer_cb p stream len = .ret v (p', out) →
        p'.buf = p.buf ∧ p'.frames = p.frames ∧ p'.channels = p.channels ∧
        ∃ k : Nat, p'.end_signal.fired = p.end_signal.fired + k ∧
          zz_audio_SamplePlayer_cb { p with end_signal := t } stream len =
            .ret v ({ p' with end_signal := { fired := t.fired + k } }, out)) ∧
    (∀ (c : Int) (m : String) (p' : zz_audio_SamplePlayer α) (out : Buf α),
      zz_audio_SamplePlayer_cb p stream len = .exit c m (p', out) →
        zz_audio_SamplePlayer_cb { p with end_signal := t } stream len =
          .exit c m ({ p' with end_signal := t }, out)) := by
  have hau : autoPause (clampPos { p with end_signal := t }) =
      { autoPause (clampPos p) with end_signal := t } := by
    rw [clampPos_signal, autoPause_signal]
  obtain ⟨hb, hf, hc, -, -⟩ := clampPos_fields p
  have hfields : (autoPause (clampPos p)).buf = p.buf ∧
      (autoPause (clampPos p)).frames = p.frames ∧
      (autoPause (clampPos p)).channels = p.channels ∧
      (autoPause (clampPos p)).end_signal = p.end_signal := by
    unfold autoPause
    split
    · exact ⟨hb, hf, hc, (clampPos_fields p).2.2.2.2⟩
    · exact ⟨hb, hf, hc, (clampPos_fields p).2.2.2.2⟩
  obtain ⟨gb, gf, gc, gs⟩ := hfields
  unfold zz_audio_SamplePlayer_cb
  simp only [hau]
  by_cases hpl : (autoPause (clampPos p)).playing = 0
  · rw [if_pos hpl, if_pos hpl]
    constructor
    · intro v p' out h
      cases h
      refine ⟨gb, gf, gc, 0, by rw [gs]; rfl, ?_⟩
      rfl
    · intro c m p' out h
      cases h
  · rw [if_neg hpl, if_neg hpl]
    obtain ⟨h1, h2⟩ := playBlock_signal (autoPause (clampPos p)) t stream
      (toInt (toSizeT len / (2 * sizeofFloat)))
    constructor
    · intro v p' out h
      obtain ⟨e1, e2, e3, k, e4, e5⟩ := h1 v p' out h
      exact ⟨by rw [e1, gb], by rw [e2, gf], by rw [e3, gc], k, by rw [e4, gs], e5⟩
    · intro c m p' out h
      exact h2 c m p' out h
theorem run_signal {α : Type} [Zero α] [ZeroFill α] (cs : List (Buf α × Int))
    (p : zz_audio_SamplePlayer α) (t : zz_trigger) (bp bq : Nat)
    (hbase : (t.fired : Int) - (bq : Int) = (p.end_signal.fired : Int) - (bp : Int)) :
    observed bq (runCalls { p with end_signal := t } cs) = observed bp (runCalls p cs) := by
  induction cs generalizing p t with
  | nil => rfl
  | cons c rest ih =>
    obtain ⟨stream, len⟩ := c
    obtain ⟨h1, h2⟩ := cb_signal p t stream len
    simp only [runCalls]
    rcases hcb : zz_audio_SamplePlayer_cb p stream len with ⟨v, p', out⟩ | ⟨c, m, p', out⟩
    · obtain ⟨-, -, -, k, hk, hq⟩ := h1 v p' out hcb
      rw [hq]
      simp only
      have hi := ih p' { fired := t.fired + k } (by
        simp only [hk]
        push_cast
        omega)
      unfold observed at hi ⊢
      rcases hr : runCalls p' rest with _ | tr
      · rw [hr] at hi
        simp only [Option.map_none', Option.map_eq_none'] at hi ⊢
        rw [hi]
      · rw [hr] at hi
        simp only [Option.map_some', Option.map_eq_some'] at hi
        obtain ⟨tr', hr', htr⟩ := hi
        rw [hr']
        simp only [Option.map_some', List.map_cons, htr, hk]
        have hk' : ((t.fired + k : Nat) : Int) - (bq : Int) =
            ((p.end_signal.fired + k : Nat) : Int) - (bp : Int) := by
          push_cast
          omega
        rw [hk']
    · rw [h2 c m p' out hcb]
      rfl

theorem run_preserves {α : Type} [Zero α] [ZeroFill α] (cs : List (Buf α × Int))
    (p : zz_audio_SamplePlayer α) (tr : List (Int × zz_audio_SamplePlayer α × Buf α))
    (h : runCalls p cs = some tr) :
    ((tr.map (fun r => r.2.1)).getLastD p).buf = p.buf ∧
    ((tr.map (fun r => r.2.1)).getLastD p).frames = p.frames ∧
    ((tr.map (fun r => r.2.1)).getLastD p).channels = p.channels := by
  induction cs generalizing p tr with
  | nil =>
    simp only [runCalls, Option.some.injEq] at h
    subst h
    exact ⟨rfl, rfl, rfl⟩
  | cons c rest ih =>
    obtain ⟨stream, len⟩ := c
    simp only [runCalls] at h
    rcases hcb : zz_audio_SamplePlayer_cb p stream len with ⟨v, p', out⟩ | ⟨c, m, p', out⟩
    · rw [hcb] at h
      simp only [Option.map_eq_some'] at h
      obtain ⟨tr', hr, rfl⟩ := h
      obtain ⟨e1, e2, e3, -⟩ := (cb_signal p p.end_signal stream len).1 v p' out hcb
      obtain ⟨g1, g2, g3⟩ := ih p' tr' hr
      simp only [List.map_cons, List.getLastD_cons]
      exact ⟨by rw [g1, e1], by rw [g2, e2], by rw [g3, e3]⟩
    · rw [hcb] at h
      simp at h
/-- C13: calls never change the source buffer, `frames` or `channels` of a player. So when a
supported player has been driven by any run of calls (`pf` is the player after that run, whether
it reached its end or not) and is then reset with `pos := 0` and `playing := 1`, every further
run of calls shows the same return values, cursor values, `playing` flags, end-signal firings
and output streams as the same run on a fresh player over the same buffer (`pos = 0`,
`playing = 1`, its own trigger); for `0 <= frames` and block lengths in range such a run returns
at every call. -/
theorem reentry_matches_fresh_player {α : Type} [Zero α] [ZeroFill α]
    (p0 pf : zz_audio_SamplePlayer α) (cs0 : List (Buf α × Int))
    (tr0 : List (Int × zz_audio_SamplePlayer α × Buf α))
    (hch : p0.channels = 1 ∨ p0.channels = 2)
    (hrun : runCalls p0 cs0 = some tr0)
    (hpf : pf = (tr0.map (fun r => r.2.1)).getLastD p0)
    (t0 : zz_trigger) (cs : List (Buf α × Int)) :
    pf.buf = p0.buf ∧ pf.frames = p0.frames ∧ pf.channels = p0.channels ∧
    observed pf.end_signal.fired (runCalls { pf with pos := 0, playing := 1 } cs) =
      observed t0.fired
        (runCalls { buf := p0.buf, frames := p0.frames, channels := p0.channels, pos := 0,
                    playing := 1, end_signal := t0 } cs) ∧
    (0 ≤ p0.frames → (∀ c ∈ cs, 0 ≤ c.2 ∧ c.2 < 2 ^ 31) →
      ∃ tr : List (Int × zz_audio_SamplePlayer α × Buf α),
        runCalls { buf := p0.buf, frames := p0.frames, channels := p0.channels, pos := 0,
                   playing := 1, end_signal := t0 } cs = some tr ∧ tr.length = cs.length) := by
  obtain ⟨e1, e2, e3⟩ := run_preserves cs0 p0 tr0 hrun
  rw [← hpf] at e1 e2 e3
  refine ⟨e1, e2, e3, ?_, ?_⟩
  · have h := run_signal cs { pf with pos := 0, playing := 1 } t0 pf.end_signal.fired t0.fired
      (by simp)
    simp only [e1, e2, e3] at h ⊢
    exact h.symm
  · intro hf hlens
    obtain ⟨tr, h1, h2, -⟩ := run_inv cs hlens
      { buf := p0.buf, frames := p0.frames, channels := p0.channels, pos := 0,
        playing := 1, end_signal := t0 } hch (le_refl _) hf (fun _ => by simp)
    exact ⟨tr, h1, h2⟩

theorem reentry_matches_fresh_player_witness :
    ∃ (tr0 : List (Int × zz_audio_SamplePlayer Int × Buf Int)) (pf : zz_audio_SamplePlayer Int),
      (((stereoTen 0).channels = 1 ∨ (stereoTen 0).channels = 2) ∧
        runCalls (stereoTen 0) [(staleStream, 80)] = some tr0 ∧
        pf = (tr0.map (fun r => r.2.1)).getLastD (stereoTen 0) ∧ pf.pos = pf.frames) ∧
      observed pf.end_signal.fired
          (runCalls { pf with pos := 0, playing := 1 } [(staleStream, 48), (staleStream, 48)]) =
        observed 0
          (runCalls { buf := (stereoTen 0).buf, frames := (stereoTen 0).frames,
                      channels := (stereoTen 0).channels, pos := 0, playing := 1,
                      end_signal := { fired := 0 } } [(staleStream, 48), (staleStream, 48)]) := by
  have hl : ∀ c ∈ [(staleStream, (80 : Int))], 0 ≤ c.2 ∧ c.2 < 2 ^ 31 := by
    intro c hc
    simp only [List.mem_singleton] at hc
    rw [hc]
    exact ⟨by decide, by norm_num⟩
  obtain ⟨tr0, hrun, -, -, hf, hp, -⟩ :=
    run_inv [(staleStream, (80 : Int))] hl (stereoTen 0) (Or.inr rfl) (by decide) (by decide)
      (fun _ => by decide)
  have hend : ((tr0.map (fun r => r.2.1)).getLastD (stereoTen 0)).pos =
      ((tr0.map (fun r => r.2.1)).getLastD (stereoTen 0)).frames := by
    rw [hp, hf]
    decide
  exact ⟨tr0, _, ⟨Or.inr rfl, hrun, rfl, hend⟩,
    (reentry_matches_fresh_player (stereoTen 0) _ [(staleStream, 80)] tr0 (Or.inr rfl) hrun rfl
      { fired := 0 } [(staleStream, 48), (staleStream, 48)]).2.2.2.1⟩

/-! ## The call inside the data -/

theorem clampPos_eq {α : Type} (p : zz_audio_SamplePlayer α) :
    clampPos p = { p with pos := min (max p.pos 0) p.frames } := by
  have h : clampPos p = { p with pos := (clampPos p).pos } := by
    unfold clampPos
    by_cases h : p.pos < 0
    · simp only [h, if_true]
      split <;> rfl
    · simp only [h, if_false]
      split <;> rfl
  rw [h, clampPos_pos_eq_min_max]

theorem cb_inside {α : Type} [Zero α] [ZeroFill α] (p : zz_audio_SamplePlayer α)
    (stream : Buf α) (len : Int) (hplay : p.playing ≠ 0)
    (hlt : min (max p.pos 0) p.frames < p.frames) :
    zz_audio_SamplePlayer_cb p stream len =
      playBlock { p with pos := min (max p.pos 0) p.frames } stream
        (toInt (toSizeT len / (2 * sizeofFloat))) := by
  unfold zz_audio_SamplePlayer_cb
  simp only
  rw [clampPos_eq, autoPause_of_lt _ hlt, if_neg hplay]

/-! ## Order of the channels -/

/-- Adding the terms of a list from zero gives the same sum for a permutation of the list as
soon as two terms that follow some of the other terms `s` can be added in either order onto
the sum of `s`. -/
theorem foldl_add_perm {α : Type} [Zero α] [Add α] (l1 l2 : List α) (hp : List.Perm l1 l2) :
    ∀ pre : List α,
      (∀ (x y : α) (s : List α), List.Subperm (x :: y :: s) (pre ++ l1) →
        s.foldl (fun acc t => acc + t) 0 + x + y = s.foldl (fun acc t => acc + t) 0 + y + x) →
      l1.foldl (fun acc t => acc + t) (pre.foldl (fun acc t => acc + t) 0) =
        l2.foldl (fun acc t => acc + t) (pre.foldl (fun acc t => acc + t) 0) := by
  induction hp with
  | nil =>
    intro _ _
    rfl
  | cons x _ ih =>
    intro pre h
    have h' := ih (pre ++ [x]) (by simpa using h)
    rw [List.foldl_append] at h'
    exact h'
  | swap x y l =>
    intro pre h
    simp only [List.foldl_cons]
    have hs : List.Subperm (x :: y :: pre) (pre ++ y :: x :: l) := by
      have h1 : List.Perm (x :: y :: pre) (pre ++ [y, x]) :=
        (List.Perm.swap x y pre).symm.trans (@List.perm_append_comm _ [y, x] pre)
      have h2 : List.Sublist (pre ++ [y, x]) (pre ++ y :: x :: l) :=
        List.Sublist.append (List.Sublist.refl pre)
          (((List.nil_sublist l).cons₂ x).cons₂ y)
      exact h1.subperm.trans h2.subperm
    rw [h x y pre hs]
  | trans h12 _ ih1 ih2 =>
    intro pre h
    rw [ih1 pre h]
    apply ih2 pre
    intro x y s hs
    exact h x y s (hs.trans (List.Perm.append_left pre h12.symm).subperm)

/-- The outputs of channels that return and do not change one another's result: called one
after the other from a state `w` in which every channel of the list produces what it produces
in the state `w0`, the mix of their outputs is the sum of the contributions read off in `w0`. -/
theorem mixedSample_of_pairwise {U W α : Type} [Add α] (len : Int) (inv : W → Prop)
    (f : zz_audio_MixerChannel U W α → W → Int)
    (blk : zz_audio_MixerChannel U W α → W → Buf α) (w0 : W)
    (chs : List (zz_audio_MixerChannel U W α))
    (hcb : ∀ ch ∈ chs, ∀ (w : W) (b : Buf α), inv w → ∃ (w' : W) (b' : Buf α),
      ch.callback ch.userdata w b len = .ret (f ch w) (w', b') ∧ inv w' ∧
      (f ch w ≠ 0 → ∀ i : Int, 0 ≤ i → i < len / 4 → b' i = blk ch w i))
    (hindep : chs.Pairwise (fun c d =>
      ∀ (w : W) (b : Buf α) (v : Int) (w' : W) (b' : Buf α), inv w →
        (c.callback c.userdata w b len = .ret v (w', b') →
          f d w' = f d w ∧ ∀ i : Int, 0 ≤ i → i < len / 4 → blk d w' i = blk d w i) ∧
        (d.callback d.userdata w b len = .ret v (w', b') →
          f c w' = f c w ∧ ∀ i : Int, 0 ≤ i → i < len / 4 → blk c w' i = blk c w i)))
    (w : W) (b : Buf α) (hw : inv w)
    (hsame : ∀ ch ∈ chs, f ch w = f ch w0 ∧
      ∀ i : Int, 0 ≤ i → i < len / 4 → blk ch w i = blk ch w0 i) :
    ∃ outs : List (Int × Buf α), channelOutputs len chs w b = some outs ∧
      ∀ (base : α) (i : Int), 0 ≤ i → i < len / 4 →
        mixedSample base outs i =
          (contributions f blk w0 chs i).foldl (fun acc x => acc + x) base := by
  induction chs generalizing w b with
  | nil => exact ⟨[], rfl, fun _ _ _ _ => rfl⟩
  | cons ch next ih =>
    obtain ⟨w', b', hcall, hw', hblk⟩ := hcb ch (List.mem_cons_self _ _) w b hw
    obtain ⟨hrel, hnext⟩ := List.pairwise_cons.mp hindep
    obtain ⟨hf0, hb0⟩ := hsame ch (List.mem_cons_self _ _)
    have hsame' : ∀ d ∈ next, f d w' = f d w0 ∧
        ∀ i : Int, 0 ≤ i → i < len / 4 → blk d w' i = blk d w0 i := by
      intro d hd
      obtain ⟨g1, g2⟩ := (hrel d hd w b (f ch w) w' b' hw).1 hcall
      obtain ⟨g3, g4⟩ := hsame d (List.mem_cons_of_mem _ hd)
      exact ⟨g1.trans g3, fun i h0 h1 => (g2 i h0 h1).trans (g4 i h0 h1)⟩
    obtain ⟨outs, ho, hmix⟩ :=
      ih (fun c hc => hcb c (List.mem_cons_of_mem _ hc)) hnext w' b' hw' hsame'
    refine ⟨(f ch w, b') :: outs, ?_, ?_⟩
    · simp only [channelOutputs, hcall, ho, Option.map_some']
    · intro base i hi0 hi1
      unfold contributions
      by_cases hf : f ch w ≠ 0
      · have e1 : ((f ch w, b') :: outs).filter (fun o => o.1 ≠ 0) =
            (f ch w, b') :: outs.filter (fun o => o.1 ≠ 0) :=
          List.filter_cons_of_pos (by simpa using hf)
        have e2 : (ch :: next).filter (fun c => f c w0 ≠ 0) =
            ch :: next.filter (fun c => f c w0 ≠ 0) :=
          List.filter_cons_of_pos (by simpa [← hf0] using hf)
        have h := hmix (base + b' i) i hi0 hi1
        unfold mixedSample contributions at h
        unfold mixedSample
        rw [e1, e2, List.map_cons, List.foldl_cons, List.map_cons, List.foldl_cons,
          ← hb0 i hi0 hi1, ← hblk hf i hi0 hi1]
        exact h
      · have e1 : ((f ch w, b') :: outs).filter (fun o => o.1 ≠ 0) =
            outs.filter (fun o => o.1 ≠ 0) :=
          List.filter_cons_of_neg (by simpa using hf)
        have e2 : (ch :: next).filter (fun c => f c w0 ≠ 0) =
            next.filter (fun c => f c w0 ≠ 0) :=
          List.filter_cons_of_neg (by simpa [← hf0] using hf)
        have h := hmix base i hi0 hi1
        unfold mixedSample contributions at h
        unfold mixedSample
        rw [e1, e2]
        exact h

/-- C14, as stated, fails for `float` samples: three channels that fill their block with
`16777216`, `1` and `1` mix to `16777216` in that order and to `16777218` when the first channel
is moved to the end, because each `+=` rounds to 24 significant bits. -/
theorem mixer_order_changes_float_mix :
    List.Perm [fillChannel (CFloat.whole 1), fillChannel (CFloat.whole 1),
        fillChannel (CFloat.whole 16777216)]
      [fillChannel (CFloat.whole 16777216), fillChannel (CFloat.whole 1),
        fillChannel (CFloat.whole 1)] ∧
    ∃ st1 st2 : MixerState Unit Unit CFloat,
      zz_audio_Mixer_cb (floatMixer [fillChannel (CFloat.whole 16777216),
        fillChannel (CFloat.whole 1), fillChannel (CFloat.whole 1)]) 16 = .ret 1 st1 ∧
      zz_audio_Mixer_cb (floatMixer [fillChannel (CFloat.whole 1),
        fillChannel (CFloat.whole 1), fillChannel (CFloat.whole 16777216)]) 16 = .ret 1 st2 ∧
      st1.stream 0 = CFloat.whole 16777216 ∧ st2.stream 0 = CFloat.whole 16777218 ∧
      st1.stream ≠ st2.stream := by
  refine ⟨@List.perm_append_comm _ [fillChannel (CFloat.whole 1), fillChannel (CFloat.whole 1)]
    [fillChannel (CFloat.whole 16777216)], ?_⟩
  have hn : toInt (toSizeT 16 / sizeofFloat) = 4 := by decide
  obtain ⟨st1, -, -, -, h1, r1⟩ := mixer_cb_through
    (floatMixer [fillChannel (CFloat.whole 16777216), fillChannel (CFloat.whole 1),
      fillChannel (CFloat.whole 1)]) 16 (by simp [floatMixer]) rfl _ rfl
  obtain ⟨st2, -, -, -, h2, r2⟩ := mixer_cb_through
    (floatMixer [fillChannel (CFloat.whole 1), fillChannel (CFloat.whole 1),
      fillChannel (CFloat.whole 16777216)]) 16 (by simp [floatMixer]) rfl _ rfl
  have e1 : st1.stream 0 = CFloat.whole 16777216 := by
    rw [h1 0, hn, if_pos (by decide)]
    rfl
  have e2 : st2.stream 0 = CFloat.whole 16777218 := by
    rw [h2 0, hn, if_pos (by decide)]
    rfl
  refine ⟨st1, st2, r1, r2, e1, e2, ?_⟩
  intro h
  rw [h, e2] at e1
  cases e1

/-- What a call of `zz_audio_SamplePlayer_cb` on a supported player returns
for `len` a non-negative multiple of 8: `1` and the played block when the player is playing with
its clamped cursor below `frames`, `0` otherwise; `buf`, `frames` and `channels` stay. -/
theorem player_cb_block {α : Type} [Zero α] [ZeroFill α]
    (p : zz_audio_SamplePlayer α) (len : Int) (s : Buf α)
    (hch : p.channels = 1 ∨ p.channels = 2)
    (hlen0 : 0 ≤ len) (hlen : len < 2 ^ 31) (h8 : 8 ∣ len) :
    ∃ (p' : zz_audio_SamplePlayer α) (o : Buf α),
      zz_audio_SamplePlayer_cb p s len =
        .ret (if p.playing ≠ 0 ∧ min (max p.pos 0) p.frames < p.frames then 1 else 0)
          (p', o) ∧
      p'.channels = p.channels ∧ p'.frames = p.frames ∧ p'.buf = p.buf ∧
      (p.playing ≠ 0 ∧ min (max p.pos 0) p.frames < p.frames →
        ∀ i : Int, 0 ≤ i → i < len / 4 → o i =
          if i < 2 * min (p.frames - min (max p.pos 0) p.frames) (len / 8) then
            (if p.channels = 2 then p.buf (intMul (min (max p.pos 0) p.frames) 2 + i)
              else p.buf (min (max p.pos 0) p.frames + i / 2))
          else 0) := by
  have hc := clampPos_eq p
  by_cases hplay : p.playing = 0
  · have hv : (if p.playing ≠ 0 ∧ min (max p.pos 0) p.frames < p.frames then (1 : Int) else 0)
        = 0 := if_neg (fun h => h.1 hplay)
    rw [hv, cb_paused p s len hplay, hc]
    exact ⟨_, _, rfl, rfl, rfl, rfl, fun h => absurd hplay h.1⟩
  · by_cases hlt : min (max p.pos 0) p.frames < p.frames
    · have hcl : zz_audio_SamplePlayer_cb p s len =
          playBlock { p with pos := min (max p.pos 0) p.frames } s (len / 8) := by
        rw [cb_inside p s len hplay hlt, frames_of_len len hlen0 hlen]
      obtain ⟨o, ho, hj⟩ := playBlock_eq_src { p with pos := min (max p.pos 0) p.frames } s
        (len / 8) hlt hch (by omega) (by omega)
      simp only at ho hj
      have hv : (if p.playing ≠ 0 ∧ min (max p.pos 0) p.frames < p.frames then (1 : Int)
          else 0) = 1 := if_pos ⟨hplay, hlt⟩
      rw [hv, hcl, ho]
      refine ⟨_, o, rfl, rfl, rfl, rfl, ?_⟩
      intro _ i hi0 hi1
      rw [hj i]
      by_cases hi : i < 2 * min (p.frames - min (max p.pos 0) p.frames) (len / 8)
      · rw [if_pos ⟨hi0, hi⟩, if_pos hi]
        rcases hch with h1 | h2
        · rw [h1, intMul_one, if_neg (by decide), if_neg (by decide)]
        · rw [h2, if_pos rfl, if_pos rfl]
      · rw [if_neg (fun h => hi h.2), if_neg hi, if_pos ⟨hi0, by omega⟩]
    · have hv : (if p.playing ≠ 0 ∧ min (max p.pos 0) p.frames < p.frames then (1 : Int)
          else 0) = 0 := if_neg (fun h => hlt h.2)
      rw [hv, cb_at_end p s len hplay (by rw [clampPos_pos_eq_min_max]; omega)]
      exact ⟨_, _, rfl, rfl, rfl, rfl, fun h => absurd h.2 hlt⟩

/-- A SamplePlayer channel returns, for `len` a non-negative multiple of 8 and a supported
channel count of its player, the same `filled` value and the same block whatever the scratch
buffer held; it leaves the other player record of the state as it was and the channel count of
its own. -/
theorem playerChannel_returns {α : Type} [Zero α] [ZeroFill α] (first : Bool) (len : Int)
    (hlen0 : 0 ≤ len) (hlen : len < 2 ^ 31) (h8 : 8 ∣ len)
    (w : zz_audio_SamplePlayer α × zz_audio_SamplePlayer α) (b : Buf α)
    (hch : (if first then w.1 else w.2).channels = 1 ∨ (if first then w.1 else w.2).channels = 2) :
    ∃ (p' : zz_audio_SamplePlayer α) (b' : Buf α),
      (playerChannel α first).callback (playerChannel α first).userdata w b len =
        .ret (filledOf len (playerChannel α first) w)
          (if first then (p', w.2) else (w.1, p'), b') ∧
      p'.channels = (if first then w.1 else w.2).channels ∧
      (filledOf len (playerChannel α first) w ≠ 0 →
        ∀ i : Int, 0 ≤ i → i < len / 4 → b' i = blockOf len (playerChannel α first) w i) := by
  obtain ⟨p1, o1, e1, c1, -, -, k1⟩ :=
    player_cb_block (if first then w.1 else w.2) len b hch hlen0 hlen h8
  obtain ⟨p0, o0, e0, -, -, -, k0⟩ :=
    player_cb_block (if first then w.1 else w.2) len (fun _ => 0) hch hlen0 hlen h8
  have hfo : filledOf len (playerChannel α first) w =
      (if (if first then w.1 else w.2).playing ≠ 0 ∧
          min (max (if first then w.1 else w.2).pos 0) (if first then w.1 else w.2).frames <
            (if first then w.1 else w.2).frames then 1 else 0) := by
    simp only [filledOf, playerChannel, e0]
  have hbo : blockOf len (playerChannel α first) w = o0 := by
    simp only [blockOf, playerChannel, e0]
  refine ⟨p1, o1, ?_, c1, ?_⟩
  · rw [hfo]
    simp only [playerChannel, e1]
  · intro hne i hi0 hi1
    have hcond : (if first then w.1 else w.2).playing ≠ 0 ∧
        min (max (if first then w.1 else w.2).pos 0) (if first then w.1 else w.2).frames <
          (if first then w.1 else w.2).frames := by
      by_contra hn
      rw [hfo, if_neg hn] at hne
      exact hne rfl
    rw [hbo, k1 hcond i hi0 hi1, k0 hcond i hi0 hi1]

/-- A call of one SamplePlayer channel leaves the `filled` value and the block of the channel of
the other player record as they were. -/
theorem playerChannel_independent {α : Type} [Zero α] [ZeroFill α] (first : Bool) (len : Int)
    (w w' : zz_audio_SamplePlayer α × zz_audio_SamplePlayer α) (b b' : Buf α) (v : Int) (k : Int)
    (h : (playerChannel α first).callback (playerChannel α first).userdata w b len =
      .ret v (w', b')) :
    filledOf k (playerChannel α (!first)) w' = filledOf k (playerChannel α (!first)) w ∧
    blockOf k (playerChannel α (!first)) w' = blockOf k (playerChannel α (!first)) w := by
  have hw : (if first then w'.2 else w'.1) = (if first then w.2 else w.1) := by
    simp only [playerChannel] at h
    split at h
    · cases h
      cases first <;> rfl
    · cases h
  cases first
  · simp only [Bool.false_eq_true, if_false] at hw
    simp only [filledOf, blockOf, playerChannel, Bool.not_false, if_true, hw]
    rcases zz_audio_SamplePlayer_cb w.1 (fun _ => 0) k with ⟨v0, p0, b0⟩ | ⟨c0, m0, p0, b0⟩ <;>
      exact ⟨rfl, rfl⟩
  · simp only [if_true] at hw
    simp only [filledOf, blockOf, playerChannel, Bool.not_true, Bool.false_eq_true, if_false, hw]
    rcases zz_audio_SamplePlayer_cb w.2 (fun _ => 0) k with ⟨v0, p0, b0⟩ | ⟨c0, m0, p0, b0⟩ <;>
      exact ⟨rfl, rfl⟩

/-- C14, amended: let the lock operations succeed and let every channel callback of a non-empty
list return, in every state that satisfies `inv`, the `filled` value `f ch w` and, when it
reports filled, a block `blk ch w` that does not depend on the scratch content it is given; let
the channels be independent of one another, a call of one changing neither the `filled` value
nor the block of another. Then for every permutation of the list `zz_audio_Mixer_cb` returns `1`
in both orders; every output sample is the sum of the same contributions, one per channel that
reports filled, added from zero in the order of the list; the streams agree outside the block;
and they agree at a sample as soon as two contributions that follow some others can be added in
either order onto the sum of those, hence everywhere when `(s + x) + y = (s + y) + x` holds
throughout, as in exact arithmetic. The rounded `float` sum need not agree. -/
theorem mixer_order_independent_up_to_summation {U W α : Type} [Zero α] [Add α] [ZeroFill α]
    (st : MixerState U W α) (chs' : List (zz_audio_MixerChannel U W α)) (len : Int)
    (hne : st.mixer.channels ≠ []) (hperm : List.Perm chs' st.mixer.channels)
    (hlen0 : 0 ≤ len) (hlen : len < 2 ^ 31)
    (hlock : st.mixer.mutex.lockStatus = 0) (hunlock : st.mixer.mutex.unlockStatus = 0)
    (inv : W → Prop) (f : zz_audio_MixerChannel U W α → W → Int)
    (blk : zz_audio_MixerChannel U W α → W → Buf α) (hinv : inv st.world)
    (hcb : ∀ ch ∈ st.mixer.channels, ∀ (w : W) (b : Buf α), inv w → ∃ (w' : W) (b' : Buf α),
      ch.callback ch.userdata w b len = .ret (f ch w) (w', b') ∧ inv w' ∧
      (f ch w ≠ 0 → ∀ i : Int, 0 ≤ i → i < len / 4 → b' i = blk ch w i))
    (hindep : st.mixer.channels.Pairwise (fun c d =>
      ∀ (w : W) (b : Buf α) (v : Int) (w' : W) (b' : Buf α), inv w →
        (c.callback c.userdata w b len = .ret v (w', b') →
          f d w' = f d w ∧ ∀ i : Int, 0 ≤ i → i < len / 4 → blk d w' i = blk d w i) ∧
        (d.callback d.userdata w b len = .ret v (w', b') →
          f c w' = f c w ∧ ∀ i : Int, 0 ≤ i → i < len / 4 → blk c w' i = blk c w i))) :
    ∃ st1 st2 : MixerState U W α,
      zz_audio_Mixer_cb st len = .ret 1 st1 ∧
      zz_audio_Mixer_cb { st with mixer := { st.mixer with channels := chs' } } len =
        .ret 1 st2 ∧
      (∀ i : Int, 0 ≤ i → i < len / 4 →
        st1.stream i =
          (contributions f blk st.world st.mixer.channels i).foldl (fun acc x => acc + x) 0 ∧
        st2.stream i = (contributions f blk st.world chs' i).foldl (fun acc x => acc + x) 0 ∧
        List.Perm (contributions f blk st.world chs' i)
          (contributions f blk st.world st.mixer.channels i) ∧
        ((∀ (x y : α) (s : List α),
            List.Subperm (x :: y :: s) (contributions f blk st.world st.mixer.channels i) →
            s.foldl (fun acc t => acc + t) 0 + x + y =
              s.foldl (fun acc t => acc + t) 0 + y + x) →
          st1.stream i = st2.stream i)) ∧
      (∀ i : Int, ¬ (0 ≤ i ∧ i < len / 4) → st1.stream i = st2.stream i) ∧
      ((∀ s x y : α, s + x + y = s + y + x) → st1.stream = st2.stream) := by
  obtain ⟨hn, hs⟩ := samples_of_len len hlen0 hlen
  have hne' : chs' ≠ [] := by
    intro h
    rw [h] at hperm
    exact hne (List.Perm.eq_nil hperm.symm)
  have hsym : ∀ c d : zz_audio_MixerChannel U W α,
      (∀ (w : W) (b : Buf α) (v : Int) (w' : W) (b' : Buf α), inv w →
        (c.callback c.userdata w b len = .ret v (w', b') →
          f d w' = f d w ∧ ∀ i : Int, 0 ≤ i → i < len / 4 → blk d w' i = blk d w i) ∧
        (d.callback d.userdata w b len = .ret v (w', b') →
          f c w' = f c w ∧ ∀ i : Int, 0 ≤ i → i < len / 4 → blk c w' i = blk c w i)) →
      (∀ (w : W) (b : Buf α) (v : Int) (w' : W) (b' : Buf α), inv w →
        (d.callback d.userdata w b len = .ret v (w', b') →
          f c w' = f c w ∧ ∀ i : Int, 0 ≤ i → i < len / 4 → blk c w' i = blk c w i) ∧
        (c.callback c.userdata w b len = .ret v (w', b') →
          f d w' = f d w ∧ ∀ i : Int, 0 ≤ i → i < len / 4 → blk d w' i = blk d w i)) :=
    fun c d h w b v w' b' hw => ⟨(h w b v w' b' hw).2, (h w b v w' b' hw).1⟩
  have hindep' := (List.Perm.pairwise_iff (fun {c d} h => hsym c d h) hperm).mpr hindep
  obtain ⟨outs1, ho1, hm1⟩ :=
    mixedSample_of_pairwise len inv f blk st.world st.mixer.channels hcb hindep st.world
      st.mixer.buf hinv (fun _ _ => ⟨rfl, fun _ _ _ => rfl⟩)
  obtain ⟨outs2, ho2, hm2⟩ :=
    mixedSample_of_pairwise len inv f blk st.world chs'
      (fun ch hc => hcb ch (hperm.subset hc)) hindep' st.world st.mixer.buf hinv
      (fun _ _ => ⟨rfl, fun _ _ _ => rfl⟩)
  obtain ⟨st1, -, -, -, h1, r1⟩ := mixer_cb_through st len hne hlock outs1 ho1
  obtain ⟨st2, -, -, -, h2, r2⟩ := mixer_cb_through
    { st with mixer := { st.mixer with channels := chs' } } len hne' hlock outs2 ho2
  rw [if_neg (by simpa using hunlock)] at r1 r2
  simp only at h2
  have hpc : ∀ i : Int, List.Perm (contributions f blk st.world chs' i)
      (contributions f blk st.world st.mixer.channels i) :=
    fun i => (hperm.filter _).map _
  have hz : ∀ i : Int, 0 ≤ i → i < len / 4 → memset st.stream 0 (toSizeT len) i = 0 := by
    intro i hi0 hi1
    rw [hs]
    exact (memset_len_apply st.stream len hlen0).1 i hi0 hi1
  have e1 : ∀ i : Int, 0 ≤ i → i < len / 4 → st1.stream i =
      (contributions f blk st.world st.mixer.channels i).foldl (fun acc x => acc + x) 0 := by
    intro i hi0 hi1
    rw [h1 i, hn, if_pos ⟨hi0, hi1⟩, hm1 _ i hi0 hi1, hz i hi0 hi1]
  have e2 : ∀ i : Int, 0 ≤ i → i < len / 4 → st2.stream i =
      (contributions f blk st.world chs' i).foldl (fun acc x => acc + x) 0 := by
    intro i hi0 hi1
    rw [h2 i, hn, if_pos ⟨hi0, hi1⟩, hm2 _ i hi0 hi1, hz i hi0 hi1]
  have hout : ∀ i : Int, ¬ (0 ≤ i ∧ i < len / 4) → st1.stream i = st2.stream i := by
    intro i hi
    rw [h1 i, h2 i, hn, if_neg hi, if_neg hi]
  have heq : ∀ i : Int, 0 ≤ i → i < len / 4 →
      (∀ (x y : α) (s : List α),
        List.Subperm (x :: y :: s) (contributions f blk st.world st.mixer.channels i) →
        s.foldl (fun acc t => acc + t) 0 + x + y =
          s.foldl (fun acc t => acc + t) 0 + y + x) →
      st1.stream i = st2.stream i := by
    intro i hi0 hi1 hc
    rw [e1 i hi0 hi1, e2 i hi0 hi1]
    exact foldl_add_perm _ _ (hpc i).symm [] hc
  refine ⟨st1, st2, r1, r2, fun i hi0 hi1 => ⟨e1 i hi0 hi1, e2 i hi0 hi1, hpc i, heq i hi0 hi1⟩,
    hout, fun hcomm => ?_⟩
  funext i
  by_cases hi : 0 ≤ i ∧ i < len / 4
  · exact heq i hi.1 hi.2 (fun x y s _ => hcomm _ x y)
  · exact hout i hi

theorem mixer_order_independent_up_to_summation_witness :
    ((playerMixer [playerChannel CFloat true, playerChannel CFloat false]).mixer.channels ≠ [] ∧
      List.Perm [playerChannel CFloat false, playerChannel CFloat true]
        (playerMixer [playerChannel CFloat true, playerChannel CFloat false]).mixer.channels ∧
      (0 : Int) ≤ 16 ∧ (16 : Int) < 2 ^ 31 ∧
      (playerMixer [playerChannel CFloat true,
        playerChannel CFloat false]).mixer.mutex.lockStatus = 0 ∧
      (playerMixer [playerChannel CFloat true,
        playerChannel CFloat false]).mixer.mutex.unlockStatus = 0) ∧
    ∃ st1 st2 : MixerState Bool (zz_audio_SamplePlayer CFloat × zz_audio_SamplePlayer CFloat)
        CFloat,
      zz_audio_Mixer_cb (playerMixer [playerChannel CFloat true, playerChannel CFloat false])
        16 = .ret 1 st1 ∧
      zz_audio_Mixer_cb (playerMixer [playerChannel CFloat false, playerChannel CFloat true])
        16 = .ret 1 st2 ∧
      st1.stream 0 = CFloat.whole 7 ∧ st2.stream 0 = CFloat.whole 7 ∧
      ∀ i : Int, 0 ≤ i → i < 16 / 4 → st1.stream i = st2.stream i := by
  have hne : (playerMixer [playerChannel CFloat true,
      playerChannel CFloat false]).mixer.channels ≠ [] := by
    simp [playerMixer]
  have hperm : List.Perm [playerChannel CFloat false, playerChannel CFloat true]
      (playerMixer [playerChannel CFloat true, playerChannel CFloat false]).mixer.channels :=
    List.Perm.swap _ _ _
  obtain ⟨st1, st2, r1, r2, hsum, -, -⟩ := mixer_order_independent_up_to_summation
    (playerMixer [playerChannel CFloat true, playerChannel CFloat false])
    [playerChannel CFloat false, playerChannel CFloat true] 16
    hne hperm (by decide) (by norm_num) rfl rfl
    (fun w => (w.1.channels = 1 ∨ w.1.channels = 2) ∧ (w.2.channels = 1 ∨ w.2.channels = 2))
    (filledOf 16) (blockOf 16) ⟨Or.inr rfl, Or.inl rfl⟩
    (by
      intro ch hch w b hw
      simp only [playerMixer, List.mem_cons, List.mem_singleton, List.not_mem_nil,
        or_false] at hch
      rcases hch with rfl | rfl
      · obtain ⟨p', b', e, c, k⟩ :=
          playerChannel_returns true 16 (by decide) (by norm_num) (by decide) w b hw.1
        exact ⟨(p', w.2), b', e, ⟨by rw [c]; exact hw.1, hw.2⟩, k⟩
      · obtain ⟨p', b', e, c, k⟩ :=
          playerChannel_returns false 16 (by decide) (by norm_num) (by decide) w b hw.2
        exact ⟨(w.1, p'), b', e, ⟨hw.1, by rw [c]; exact hw.2⟩, k⟩)
    (by
      refine List.pairwise_pair.mpr ?_
      intro w b v w' b' _
      constructor
      · intro h
        obtain ⟨g1, g2⟩ := playerChannel_independent true 16 w w' b b' v 16 h
        exact ⟨g1, fun i _ _ => congrFun g2 i⟩
      · intro h
        obtain ⟨g1, g2⟩ := playerChannel_independent false 16 w w' b b' v 16 h
        exact ⟨g1, fun i _ _ => congrFun g2 i⟩)
  have hc : ∀ (x y : CFloat) (s : List CFloat),
      List.Subperm (x :: y :: s) [CFloat.whole 3, CFloat.whole 4] →
      s.foldl (fun acc t => acc + t) 0 + x + y = s.foldl (fun acc t => acc + t) 0 + y + x := by
    intro x y s h
    have hl := h.length_le
    have hs : s = [] := by
      cases s with
      | nil => rfl
      | cons a t =>
        simp only [List.length_cons, List.length_nil] at hl
        omega
    subst hs
    have hx := h.subset (List.mem_cons_self _ _)
    have hy := h.subset (List.mem_cons_of_mem _ (List.mem_cons_self _ _))
    simp only [List.mem_cons, List.mem_singleton, List.not_mem_nil, or_false] at hx hy
    rcases hx with rfl | rfl <;> rcases hy with rfl | rfl <;> rfl
  have hcon : ∀ i : Int, 0 ≤ i → i < 16 / 4 →
      contributions (filledOf 16) (blockOf 16)
        (playerMixer [playerChannel CFloat true, playerChannel CFloat false]).world
        (playerMixer [playerChannel CFloat true, playerChannel CFloat false]).mixer.channels i =
      [CFloat.whole 3, CFloat.whole 4] := by
    intro i h0 h1
    have h1' : i < 4 := h1
    interval_cases i <;> rfl
  refine ⟨⟨hne, hperm, by decide, by norm_num, rfl, rfl⟩, st1, st2, r1, r2, ?_, ?_, ?_⟩
  · rw [(hsum 0 (by decide) (by decide)).1, hcon 0 (by decide) (by decide)]
    rfl
  · rw [(hsum 0 (by decide) (by decide)).2.1]
    rfl
  · intro i h0 h1
    refine (hsum i h0 h1).2.2.2 ?_
    rw [hcon i h0 h1]
    exact hc

/-! ## The fatal configuration error -/

theorem playBlock_supported {α : Type} [Zero α] [ZeroFill α] (p : zz_audio_SamplePlayer α)
    (stream : Buf α) (q : Int) (hch : p.channels = 1 ∨ p.channels = 2) :
    ∃ (p' : zz_audio_SamplePlayer α) (out : Buf α), playBlock p stream q = .ret 1 (p', out) := by
  have hcf : ∃ r, copyFrames p stream (MIN (p.frames - p.pos) q) (intMul p.pos p.channels) 0 =
      some r := by
    unfold copyFrames
    rcases hch with h | h
    · rw [if_neg (by omega), if_pos h]
      exact ⟨_, rfl⟩
    · rw [if_pos h]
      exact ⟨_, rfl⟩
  obtain ⟨⟨s', d', st'⟩, hr⟩ := hcf
  unfold playBlock
  simp only [hr]
  exact ⟨_, _, rfl⟩

/-- C15: for a non-negative `int` length `len` (`0 <= len < 2 ^ 31`, so that the byte counts
handed to `memcpy` and `memset` are those of the block), `zz_audio_SamplePlayer_cb` ends in
`exit` if and only if `playing != 0`, the clamped cursor is below `frames` and `channels` is
neither 1 nor 2; it then exits with status 1 after printing the diagnostic, with the end signal
not fired, the cursor clamped but not advanced and the stream untouched; in every other state the
call returns. -/
theorem unsupported_channels_exit_iff {α : Type} [Zero α] [ZeroFill α]
    (p : zz_audio_SamplePlayer α) (stream : Buf α) (len : Int)
    (hlen0 : 0 ≤ len) (hlen : len < 2 ^ 31) :
    ((∃ (c : Int) (m : String) (st : zz_audio_SamplePlayer α × Buf α),
        zz_audio_SamplePlayer_cb p stream len = .exit c m st) ↔
      (p.playing ≠ 0 ∧ min (max p.pos 0) p.frames < p.frames ∧
        p.channels ≠ 1 ∧ p.channels ≠ 2)) ∧
    (p.playing ≠ 0 ∧ min (max p.pos 0) p.frames < p.frames ∧ p.channels ≠ 1 ∧ p.channels ≠ 2 →
      zz_audio_SamplePlayer_cb p stream len =
        .exit 1 ("unsupported number of sample channels: " ++ toString p.channels ++ "\n")
          ({ p with pos := min (max p.pos 0) p.frames }, stream)) ∧
    (¬ (p.playing ≠ 0 ∧ min (max p.pos 0) p.frames < p.frames ∧
        p.channels ≠ 1 ∧ p.channels ≠ 2) →
      ∃ (v : Int) (st : zz_audio_SamplePlayer α × Buf α),
        zz_audio_SamplePlayer_cb p stream len = .ret v st) := by
  have _hq : toInt (toSizeT len / (2 * sizeofFloat)) = len / 8 := frames_of_len len hlen0 hlen
  have hexit : p.playing ≠ 0 ∧ min (max p.pos 0) p.frames < p.frames ∧ p.channels ≠ 1 ∧
      p.channels ≠ 2 →
      zz_audio_SamplePlayer_cb p stream len =
        .exit 1 ("unsupported number of sample channels: " ++ toString p.channels ++ "\n")
          ({ p with pos := min (max p.pos 0) p.frames }, stream) := by
    rintro ⟨hplay, hlt, h1, h2⟩
    rw [cb_inside p stream len hplay hlt]
    exact playBlock_unsupported _ stream _ h1 h2
  have hret : ¬ (p.playing ≠ 0 ∧ min (max p.pos 0) p.frames < p.frames ∧
      p.channels ≠ 1 ∧ p.channels ≠ 2) →
      ∃ (v : Int) (st : zz_audio_SamplePlayer α × Buf α),
        zz_audio_SamplePlayer_cb p stream len = .ret v st := by
    intro hn
    by_cases hplay : p.playing = 0
    · exact ⟨_, _, cb_paused p stream len hplay⟩
    · by_cases hlt : min (max p.pos 0) p.frames < p.frames
      · have hch : p.channels = 1 ∨ p.channels = 2 := by
          by_contra hc
          exact hn ⟨hplay, hlt, fun h => hc (Or.inl h), fun h => hc (Or.inr h)⟩
        obtain ⟨p', out, h⟩ := playBlock_supported
          { p with pos := min (max p.pos 0) p.frames } stream
          (toInt (toSizeT len / (2 * sizeofFloat))) hch
        exact ⟨1, (p', out), by rw [cb_inside p stream len hplay hlt, h]⟩
      · refine ⟨_, _, cb_at_end p stream len hplay ?_⟩
        rw [clampPos_pos_eq_min_max]
        omega
  refine ⟨⟨?_, fun h => ⟨_, _, _, hexit h⟩⟩, hexit, hret⟩
  rintro ⟨c, m, st, hx⟩
  by_contra hn
  obtain ⟨v, st', hr⟩ := hret hn
  rw [hr] at hx
  cases hx

theorem unsupported_channels_exit_iff_witness :
    ((0 : Int) ≤ 48 ∧ (48 : Int) < 2 ^ 31) ∧
    zz_audio_SamplePlayer_cb { stereoTen (-2) with channels := 3 } staleStream 48 =
      .exit 1 "unsupported number of sample channels: 3\n"
        ({ stereoTen 0 with channels := 3 }, staleStream) :=
  ⟨⟨by decide, by norm_num⟩,
    (unsupported_channels_exit_iff { stereoTen (-2) with channels := 3 } staleStream 48
      (by decide) (by norm_num)).2.1 ⟨by decide, by decide, by decide, by decide⟩⟩
/-! ## The traversal of the channel list -/

theorem mixLoop_state {U W α : Type} [Add α] (len : Int)
    (chs : List (zz_audio_MixerChannel U W α)) (st : MixerState U W α) (w' : W) (b' : Buf α)
    (h : callInOrder len chs st.world st.mixer.buf = some (w', b')) :
    ∃ st' : MixerState U W α, mixLoop len chs st = .ret () st' ∧
      st'.world = w' ∧ st'.mixer.buf = b' ∧
      st'.mixer.mutex = st.mixer.mutex ∧ st'.mixer.channels = st.mixer.channels ∧
      st'.trace = st.trace ++ chs.map (fun ch => Event.call ch len) := by
  induction chs generalizing st with
  | nil =>
    simp only [callInOrder, Option.some.injEq, Prod.mk.injEq] at h
    exact ⟨st, rfl, h.1, h.2, rfl, rfl, by simp⟩
  | cons ch next ih =>
    simp only [callInOrder] at h
    simp only [mixLoop]
    rcases hcb : ch.callback ch.userdata st.world st.mixer.buf len with ⟨filled, w, b⟩ | ⟨c, m, s⟩
    · rw [hcb] at h
      simp only at h ⊢
      by_cases hf : filled ≠ 0
      · rw [if_pos hf]
        obtain ⟨st', h1, h2, h3, h4, h5, h6⟩ := ih
          { mixer := { mutex := st.mixer.mutex, buf := b, channels := st.mixer.channels },
            world := w,
            stream := addLoop b (toInt (toSizeT len / sizeofFloat)).toNat 0 st.stream,
            trace := st.trace ++ [Event.call ch len] } h
        exact ⟨st', h1, h2, h3, h4, h5, by rw [h6]; simp⟩
      · rw [if_neg hf]
        obtain ⟨st', h1, h2, h3, h4, h5, h6⟩ := ih
          { mixer := { mutex := st.mixer.mutex, buf := b, channels := st.mixer.channels },
            world := w, stream := st.stream,
            trace := st.trace ++ [Event.call ch len] } h
        exact ⟨st', h1, h2, h3, h4, h5, by rw [h6]; simp⟩
    · rw [hcb] at h
      simp at h

/-- C17: for a non-negative `int` length `len` (`0 <= len < 2 ^ 31`, so that the `memset` of
line 41 clears the block and no more), on a non-empty channel list, with both lock operations
succeeding and every callback returning, `zz_audio_Mixer_cb` returns `1` after exactly these
steps: one `SDL_LockMutex`, then
one call per channel in list order with the same `len`, then one `SDL_UnlockMutex`; the state and
the scratch buffer it leaves are those of calling the callbacks once each in that order on the
shared scratch buffer, and the channel list and the mutex are unchanged. -/
theorem mixer_traversal_calls_each_channel_once {U W α : Type} [Zero α] [Add α] [ZeroFill α]
    (st : MixerState U W α) (len : Int) (hlen0 : 0 ≤ len) (hlen : len < 2 ^ 31)
    (hne : st.mixer.channels ≠ [])
    (hlock : st.mixer.mutex.lockStatus = 0) (hunlock : st.mixer.mutex.unlockStatus = 0)
    (w' : W) (b' : Buf α)
    (hret : callInOrder len st.mixer.channels st.world st.mixer.buf = some (w', b')) :
    ∃ st' : MixerState U W α, zz_audio_Mixer_cb st len = .ret 1 st' ∧
      st'.trace = st.trace ++ [Event.lock] ++
        st.mixer.channels.map (fun ch => Event.call ch len) ++ [Event.unlock] ∧
      st'.world = w' ∧ st'.mixer.buf = b' ∧
      st'.mixer.channels = st.mixer.channels ∧ st'.mixer.mutex = st.mixer.mutex := by
  have _hs : toSizeT len = len := toSizeT_of_len len hlen0 hlen
  obtain ⟨st1, h1, h2, h3, h4, h5, h6⟩ := mixLoop_state len st.mixer.channels
    { st with stream := memset st.stream 0 (toSizeT len), trace := st.trace ++ [Event.lock] }
    w' b' hret
  refine ⟨{ st1 with trace := st1.trace ++ [Event.unlock] }, ?_, ?_, h2, h3, h5, h4⟩
  · unfold zz_audio_Mixer_cb
    rw [if_neg (by simpa using hne)]
    simp only
    rw [if_neg (by simpa using hlock), h1]
    simp only
    rw [h4, if_neg (by simpa using hunlock)]
  · simp only [h6]

theorem mixer_traversal_calls_each_channel_once_witness :
    ((0 : Int) ≤ 16 ∧ (16 : Int) < 2 ^ 31 ∧
      countingMixer.mixer.channels ≠ [] ∧ countingMixer.mixer.mutex.lockStatus = 0 ∧
      countingMixer.mixer.mutex.unlockStatus = 0 ∧
      callInOrder 16 countingMixer.mixer.channels countingMixer.world countingMixer.mixer.buf =
        some (3, Buf.write (Buf.write (Buf.write (fun _ => 9) 0 1) 0 2) 0 3)) ∧
    ∃ st' : MixerState Unit Nat Int,
      zz_audio_Mixer_cb countingMixer 16 = .ret 1 st' ∧
      st'.trace = [Event.lock, Event.call countingChannel 16, Event.call countingChannel 16,
        Event.call countingChannel 16, Event.unlock] ∧
      st'.world = 3 ∧ st'.mixer.buf 0 = 3 := by
  have hne : countingMixer.mixer.channels ≠ [] := by simp [countingMixer]
  obtain ⟨st', h1, h2, h3, h4, -, -⟩ := mixer_traversal_calls_each_channel_once
    countingMixer 16 (by decide) (by norm_num) hne rfl rfl 3
    (Buf.write (Buf.write (Buf.write (fun _ => 9) 0 1) 0 2) 0 3) rfl
  refine ⟨⟨by decide, by norm_num, hne, rfl, rfl, rfl⟩, st', h1, ?_, h3, ?_⟩
  · rw [h2]
    rfl
  · rw [h4]
    rfl

/-! ## Bounds of the accesses -/

theorem mem_span (off n i : Int) : i ∈ span off n ↔ off ≤ i ∧ i < off + n := by
  unfold span
  simp only [List.mem_map, List.mem_range]
  constructor
  · rintro ⟨k, hk, rfl⟩
    omega
  · rintro ⟨h1, h2⟩
    exact ⟨(i - off).toNat, by omega, by omega⟩

theorem upmixAccess_spec (n : Nat) (s d : Int) :
    (∀ i : Int, i ∈ (upmixAccess n s d).1 ↔ s ≤ i ∧ i < s + n) ∧
    (∀ i : Int, i ∈ (upmixAccess n s d).2.1 ↔ d ≤ i ∧ i < d + 2 * n) ∧
    (upmixAccess n s d).2.2 = d + 2 * n := by
  induction n generalizing s d with
  | zero =>
    simp only [upmixAccess, List.not_mem_nil, Nat.cast_zero, mul_zero, add_zero, false_iff]
    exact ⟨fun i => by omega, fun i => by omega, trivial⟩
  | succ n ih =>
    obtain ⟨h1, h2, h3⟩ := ih (s + 1) (d + 2)
    simp only [upmixAccess, List.mem_cons, h1, h2, h3]
    push_cast
    exact ⟨fun i => by omega, fun i => by omega, by ring⟩

theorem playBlockAccess_spec {α : Type} (p : zz_audio_SamplePlayer α) (q : Int)
    (hch : p.channels = 1 ∨ p.channels = 2) (hpos : p.pos < p.frames)
    (hq0 : 0 ≤ q) (hq : q < 2 ^ 31) :
    (∀ i : Int, i ∈ (playBlockAccess p q).1 ↔
      intMul p.pos p.channels ≤ i ∧ i < intMul p.pos p.channels + p.channels * min (p.frames - p.pos) q) ∧
    (∀ j : Int, j ∈ (playBlockAccess p q).2 ↔ 0 ≤ j ∧ j < 2 * q) := by
  have hfc : (blockCounts p q).1 = min (p.frames - p.pos) q := by
    simp only [blockCounts, MIN_eq_min]
  have hzc : (blockCounts p q).2 = q - min (p.frames - p.pos) q := by
    simp only [blockCounts, MIN_eq_min]
  have hc0 : 0 ≤ min (p.frames - p.pos) q := by omega
  have hc1 : min (p.frames - p.pos) q ≤ q := by omega
  unfold playBlockAccess
  simp only [hfc, hzc]
  generalize min (p.frames - p.pos) q = c at hc0 hc1
  have hbz : toSizeT (toSizeT (2 * (q - c)) * sizeofFloat) = 8 * (q - c) :=
    bytes_of_count (q - c) (by omega) (by omega)
  have hbc : toSizeT (toSizeT (2 * c) * sizeofFloat) = 8 * c := bytes_of_count c hc0 (by omega)
  have hzero : ∀ (d : Int), d = 2 * c → ∀ j : Int, j ∈ (if q - c > 0 then
      memsetAccess d (toSizeT (toSizeT (2 * (q - c)) * sizeofFloat)) else []) ↔
      2 * c ≤ j ∧ j < 2 * q := by
    intro d hd j
    by_cases hz : q - c > 0
    · rw [if_pos hz, hbz]
      unfold memsetAccess sizeofFloat
      rw [if_neg (by omega), List.append_nil, mem_span]
      omega
    · rw [if_neg hz]
      simp only [List.not_mem_nil, false_iff]
      omega
  rcases hch with h | h
  · have hcf : copyFramesAccess p c (intMul p.pos p.channels) 0 =
        upmixAccess c.toNat (intMul p.pos p.channels) 0 := by
      unfold copyFramesAccess
      rw [if_neg (by omega), if_pos h]
    obtain ⟨h1, h2, h3⟩ := upmixAccess_spec c.toNat (intMul p.pos p.channels) 0
    have hcn : ((c.toNat : Nat) : Int) = c := Int.toNat_of_nonneg hc0
    rw [hcn] at h1 h2 h3
    rw [hcf]
    constructor
    · intro i
      rw [h1, h]
      omega
    · intro j
      rw [List.mem_append, h2, hzero _ (by rw [h3]; omega) j]
      omega
  · have hcf : copyFramesAccess p c (intMul p.pos p.channels) 0 =
        (span (intMul p.pos p.channels) (2 * c), span 0 (2 * c), 0 + 2 * c) := by
      unfold copyFramesAccess
      rw [if_pos h, hbc]
      unfold memcpyAccess sizeofFloat
      have e : 8 * c / 4 = 2 * c := by omega
      rw [e]
    rw [hcf]
    constructor
    · intro i
      simp only [mem_span]
      rw [h]
    · intro j
      simp only [List.mem_append, mem_span]
      rw [hzero _ (by omega) j]
      omega

theorem autoPause_playing {α : Type} (x : zz_audio_SamplePlayer α)
    (h : (autoPause x).playing ≠ 0) : autoPause x = x ∧ x.playing ≠ 0 ∧ x.pos ≠ x.frames := by
  unfold autoPause at h ⊢
  by_cases hc : x.playing ≠ 0 ∧ x.pos = x.frames
  · rw [if_pos hc] at h
    exact absurd rfl h
  · rw [if_neg hc] at h ⊢
    exact ⟨rfl, h, fun he => hc ⟨h, he⟩⟩

/-- Where the buffer has at most `2 ^ 31` samples (`frames * channels <= 2 ^ 31`, so that the
`int` product of line 88 is exact), for `0 <= frames`, a supported channel count, any `pos` and
`playing`, and `0 <= len`: every offset of the source buffer that a `zz_audio_SamplePlayer_cb`
call reads lies in `[0, frames * channels)`, every offset of the stream it writes lies in
`[0, 2 * (len / 8))`, and the locals `frame_count` and `zero_count`, when the call computes them,
are non-negative and add up to `len / 8`. -/
theorem player_accesses_in_bounds {α : Type} (p : zz_audio_SamplePlayer α) (len : Int)
    (hf : 0 ≤ p.frames) (hch : p.channels = 1 ∨ p.channels = 2)
    (hlen0 : 0 ≤ len) (hlen : len < 2 ^ 31) (hsz : p.frames * p.channels ≤ 2 ^ 31) :
    (∀ i ∈ (playerAccess p len).1, 0 ≤ i ∧ i < p.frames * p.channels) ∧
    (∀ j ∈ (playerAccess p len).2, 0 ≤ j ∧ j < 2 * (len / 8)) ∧
    (∀ fc zc : Int, playerCounts p len = some (fc, zc) →
      0 ≤ fc ∧ 0 ≤ zc ∧ fc + zc = len / 8) := by
  obtain ⟨h0, h1⟩ := clampPos_range p hf
  obtain ⟨-, hfr, hcc, -, -⟩ := clampPos_fields p
  unfold playerAccess playerCounts
  simp only [frames_of_len len hlen0 hlen]
  by_cases hpl : (autoPause (clampPos p)).playing = 0
  · rw [if_pos hpl, if_pos hpl]
    refine ⟨fun i hi => ?_, fun j hj => ?_, fun fc zc h => ?_⟩
    · cases hi
    · cases hj
    · cases h
  · rw [if_neg hpl, if_neg hpl]
    obtain ⟨ha, -, hne⟩ := autoPause_playing (clampPos p) hpl
    rw [ha]
    have hlt : (clampPos p).pos < (clampPos p).frames := by
      rw [hfr] at hne ⊢
      omega
    obtain ⟨hr, hw⟩ := playBlockAccess_spec (clampPos p) (len / 8) (by rw [hcc]; exact hch) hlt
      (by omega) (by omega)
    refine ⟨fun i hi => ?_, fun j hj => (hw j).mp hj, fun fc zc h => ?_⟩
    · have := (hr i).mp hi
      rw [hfr, hcc] at this
      rw [hfr] at hlt
      rcases hch with hc | hc
      · rw [hc, intMul_one] at this
        rw [hc]
        omega
      · rw [hc] at this hsz
        rw [intMul_of_range _ _ (by omega) (by omega)] at this
        rw [hc]
        omega
    · simp only [blockCounts, MIN_eq_min, Option.some.injEq, Prod.mk.injEq] at h
      obtain ⟨rfl, rfl⟩ := h
      rw [hfr]
      omega

theorem player_accesses_in_bounds_witness :
    (0 ≤ (stereoTen 7).frames ∧ ((stereoTen 7).channels = 1 ∨ (stereoTen 7).channels = 2) ∧
        (0 : Int) ≤ 48 ∧ (48 : Int) < 2 ^ 31) ∧
      (stereoTen 7).frames * (stereoTen 7).channels ≤ 2 ^ 31 ∧
      (playerAccess (stereoTen 7) 48).1 = [14, 15, 16, 17, 18, 19] ∧
      (playerAccess (stereoTen 7) 48).2 = [0, 1, 2, 3, 4, 5, 6, 7, 8, 9, 10, 11] ∧
      playerCounts (stereoTen 7) 48 = some (3, 3) ∧
      (∀ i ∈ (playerAccess (stereoTen 7) 48).1,
        0 ≤ i ∧ i < (stereoTen 7).frames * (stereoTen 7).channels) ∧
      (∀ j ∈ (playerAccess (stereoTen 7) 48).2, 0 ≤ j ∧ j < 2 * (48 / 8)) :=
  ⟨⟨by decide, Or.inr rfl, by decide, by norm_num⟩, by norm_num [stereoTen], by decide,
    by decide, by decide,
    (player_accesses_in_bounds (stereoTen 7) 48 (by decide) (Or.inr rfl) (by decide)
      (by norm_num) (by norm_num [stereoTen])).1,
    (player_accesses_in_bounds (stereoTen 7) 48 (by decide) (Or.inr rfl) (by decide)
      (by norm_num) (by norm_num [stereoTen])).2.1⟩
theorem clampPos_buf {α : Type} (p : zz_audio_SamplePlayer α) (buf2 : Buf α) :
    clampPos { p with buf := buf2 } = { clampPos p with buf := buf2 } := by
  unfold clampPos
  by_cases h : p.pos < 0
  · simp only [h, if_true]
    split <;> rfl
  · simp only [h, if_false]
    split <;> rfl

theorem autoPause_buf {α : Type} (p : zz_audio_SamplePlayer α) (buf2 : Buf α) :
    autoPause { p with buf := buf2 } = { autoPause p with buf := buf2 } := by
  unfold autoPause
  simp only
  split <;> rfl

/-- The access lists are those of the embedding: a returning call leaves the stream as it was
at every offset that is not in the list of writes, and it ends the same way on any source buffer
that agrees with `player->buf` on the list of reads. -/
theorem playerAccess_sound {α : Type} [Zero α] [ZeroFill α] (p : zz_audio_SamplePlayer α)
    (stream : Buf α) (len : Int) (hf : 0 ≤ p.frames) (hch : p.channels = 1 ∨ p.channels = 2)
    (hlen0 : 0 ≤ len) (hlen : len < 2 ^ 31)
    (v : Int) (p' : zz_audio_SamplePlayer α) (out : Buf α)
    (hret : zz_audio_SamplePlayer_cb p stream len = .ret v (p', out)) :
    (∀ j : Int, j ∉ (playerAccess p len).2 → out j = stream j) ∧
    (∀ buf2 : Buf α, (∀ i ∈ (playerAccess p len).1, buf2 i = p.buf i) →
      zz_audio_SamplePlayer_cb { p with buf := buf2 } stream len =
        .ret v ({ p' with buf := buf2 }, out)) := by
  obtain ⟨hb, hfr, hcc, -, -⟩ := clampPos_fields p
  have hq : toInt (toSizeT len / (2 * sizeofFloat)) = len / 8 := frames_of_len len hlen0 hlen
  unfold playerAccess
  unfold zz_audio_SamplePlayer_cb at hret ⊢
  simp only [hq, clampPos_buf, autoPause_buf] at hret ⊢
  by_cases hpl : (autoPause (clampPos p)).playing = 0
  · rw [if_pos hpl] at hret
    simp only [if_pos hpl]
    cases hret
    exact ⟨fun _ _ => rfl, fun _ _ => rfl⟩
  · rw [if_neg hpl] at hret
    simp only [if_neg hpl]
    obtain ⟨ha, -, hne⟩ := autoPause_playing (clampPos p) hpl
    rw [ha] at hret ⊢
    have hle := (clampPos_range p hf).2
    have hge := (clampPos_range p hf).1
    have hlt : (clampPos p).pos < (clampPos p).frames := by
      rw [hfr] at hne ⊢
      omega
    have hch' : (clampPos p).channels = 1 ∨ (clampPos p).channels = 2 := by
      rw [hcc]
      exact hch
    obtain ⟨hr, hw⟩ := playBlockAccess_spec (clampPos p) (len / 8) hch' hlt (by omega) (by omega)
    obtain ⟨o1, e1, f1⟩ := playBlock_eq_src (clampPos p) stream (len / 8) hlt hch' (by omega)
      (by omega)
    rw [e1] at hret
    cases hret
    constructor
    · intro j hj
      rw [hw j] at hj
      rw [f1 j, if_neg (by omega), if_neg hj]
    · intro buf2 hagree
      obtain ⟨o2, e2, f2⟩ := playBlock_eq_src { clampPos p with buf := buf2 } stream (len / 8)
        hlt hch' (by omega) (by omega)
      rw [e2]
      have ho : o2 = out := by
        funext j
        have g2 := f2 j
        simp only at g2
        rw [f1 j, g2]
        by_cases hj : 0 ≤ j ∧ j < 2 * min ((clampPos p).frames - (clampPos p).pos) (len / 8)
        · rw [if_pos hj, if_pos hj]
          rcases hch' with hc | hc
          · rw [if_neg (by omega), if_neg (by omega)]
            rw [hb]
            exact hagree (intMul (clampPos p).pos (clampPos p).channels + j / 2)
              ((hr _).mpr (by rw [hc]; omega))
          · rw [if_pos hc, if_pos hc]
            rw [hb]
            exact hagree (intMul (clampPos p).pos (clampPos p).channels + j)
              ((hr _).mpr (by rw [hc]; omega))
        · rw [if_neg hj, if_neg hj]
      rw [ho]

/-- C18, as stated, fails on the code where the `int` product `pos * channels` of line 88
wraps. The stereo player `largeStereo` (`frames = 2 ^ 30 + 1`, `pos = 2 ^ 30`) has `0 <= frames`
and a supported channel count, and a call for one frame (`len = 8`) reads the source at the
offsets `-2147483648` and `-2147483647`, below `[0, frames * channels)`. The call itself shows
the read: on two source buffers that hold the same samples at every offset from 0 on and differ
below 0, the same call leaves different output. -/
theorem player_reads_below_buffer_at_large_pos :
    (0 ≤ largeStereo.frames ∧ (largeStereo.channels = 1 ∨ largeStereo.channels = 2) ∧
      (0 : Int) ≤ 8 ∧ (8 : Int) < 2 ^ 31) ∧
    (playerAccess largeStereo 8).1 = [-2147483648, -2147483647] ∧
    (∃ i ∈ (playerAccess largeStereo 8).1,
      ¬ (0 ≤ i ∧ i < largeStereo.frames * largeStereo.channels)) ∧
    (∀ i : Int, 0 ≤ i → largeStereoPadded.buf i = largeStereo.buf i) ∧
    largeStereoPadded = { largeStereo with buf := largeStereoPadded.buf } ∧
    ∃ (p1 p2 : zz_audio_SamplePlayer Int) (o1 o2 : Buf Int),
      zz_audio_SamplePlayer_cb largeStereo staleStream 8 = .ret 1 (p1, o1) ∧
      zz_audio_SamplePlayer_cb largeStereoPadded staleStream 8 = .ret 1 (p2, o2) ∧
      o1 0 = -2147483648 ∧ o2 0 = 0 ∧ o1 0 ≠ o2 0 := by
  have hacc : (playerAccess largeStereo 8).1 = [-2147483648, -2147483647] := by decide
  have hm : intMul largeStereo.pos largeStereo.channels = -2147483648 := by decide
  have hm2 : intMul largeStereoPadded.pos largeStereoPadded.channels = -2147483648 := by decide
  obtain ⟨o1, h1, f1⟩ :=
    playBlock_eq_src largeStereo staleStream (8 / 8) (by decide) (Or.inr rfl) (by decide)
      (by decide)
  obtain ⟨o2, h2, f2⟩ :=
    playBlock_eq_src largeStereoPadded staleStream (8 / 8) (by decide) (Or.inr rfl) (by decide)
      (by decide)
  have c1 := cb_playing largeStereo staleStream 8 (by decide) (by decide) (by decide)
    (by decide) (by norm_num)
  have c2 := cb_playing largeStereoPadded staleStream 8 (by decide) (by decide) (by decide)
    (by decide) (by norm_num)
  have e1 : o1 0 = -2147483648 := by
    rw [f1 0, if_pos (by decide), if_pos (show largeStereo.channels = 2 from rfl), hm]
    rfl
  have e2 : o2 0 = 0 := by
    rw [f2 0, if_pos (by decide), if_pos (show largeStereoPadded.channels = 2 from rfl), hm2]
    rfl
  refine ⟨⟨by decide, Or.inr rfl, by decide, by norm_num⟩, hacc, ?_, ?_, rfl, _, _, o1, o2,
    c1.trans h1, c2.trans h2, e1, e2, ?_⟩
  · rw [hacc]
    exact ⟨-2147483648, by simp, by decide⟩
  · intro i hi
    show (if i < 0 then 0 else i) = i
    rw [if_neg (by omega)]
  · rw [e1, e2]
    decide

/-! ## A device over a SamplePlayer -/

end ZzAudio
